import Mathlib

/-!
Shallow embedding of the linear-space global alignment engine of
`bioinformatics-algorithms-rust` (files `src/alignment.rs` and
`src/alignment/pairwise/gotoh_space_efficient.rs`), together with theorems
settling the specification claims about it.

Sequences are byte sequences; we model a byte as a `Nat` and a sequence as
`List Nat`.  The Rust `Score` type is `i32`; scores are modelled as
unbounded `Int`, with the sentinel `Score::MIN` rendered as the literal
constant `-2^31` (no arithmetic in any of the verified runs approaches the
`i32` range, so wrap-around is never exercised).
-/

namespace BioAlgo

/-- Rust `type Score = i32`, modelled as `Int`. -/
abbrev Score := Int

/-- The sentinel `Score::MIN` (`i32::MIN`). -/
def scoreMIN : Int := -2147483648

/-- `enum AlignmentOperation` from `src/alignment.rs`:
`Del`, `Ins`, `Subst`, `Match`, `None`. -/
inductive AlignmentOperation where
  | Del
  | Ins
  | Subst
  | Match
  | None
  deriving DecidableEq, Repr

/-- `struct MatchParams` from `src/alignment.rs`: constant match/mismatch
scores. -/
structure MatchParams where
  match_score : Int
  mismatch_score : Int
  deriving DecidableEq, Repr

/-- `MatchParams::new` (`src/alignment.rs` lines 79-86).  The Rust
constructor `assert!`s `match_score >= 0` and `mismatch_score <= 0`;
the panic is modelled by `Option.none`. -/
def MatchParams.new (match_score mismatch_score : Int) : Option MatchParams :=
  if 0 ≤ match_score then
    if mismatch_score ≤ 0 then
      some ⟨match_score, mismatch_score⟩
    else
      Option.none
  else
    Option.none

/-- `impl MatchFunc for MatchParams` (`src/alignment.rs` lines 89-98). -/
def MatchParams.score (p : MatchParams) (a b : Nat) : Int :=
  if a = b then p.match_score else p.mismatch_score

/-- `struct Scoring<F>` from `src/alignment.rs`.  The `match_fn` capability
(`MatchFunc::score`) is modelled as a plain function on byte values. -/
structure Scoring where
  gap_open : Int
  gap_extend : Int
  match_fn : Nat → Nat → Int
  match_scores : Option (Int × Int)

/-- `Scoring::from_scores` (`src/alignment.rs` lines 132-147).  The Rust
constructor `assert!`s `gap_open <= 0` and `gap_extend <= 0` and then builds
a `MatchParams` (whose own constructor asserts the match-score signs); any
assertion failure is modelled by `Option.none`. -/
def Scoring.from_scores (gap_open gap_extend match_score mismatch_score : Int) :
    Option Scoring :=
  if gap_open ≤ 0 then
    if gap_extend ≤ 0 then
      (MatchParams.new match_score mismatch_score).map fun p =>
        { gap_open := gap_open
          gap_extend := gap_extend
          match_fn := p.score
          match_scores := some (match_score, mismatch_score) }
    else
      Option.none
  else
    Option.none

/-- `Scoring::new` (`src/alignment.rs` lines 159-169): arbitrary match
function, asserts `gap_open <= 0` and `gap_extend <= 0`. -/
def Scoring.new (gap_open gap_extend : Int) (match_fn : Nat → Nat → Int) :
    Option Scoring :=
  if gap_open ≤ 0 then
    if gap_extend ≤ 0 then
      some { gap_open := gap_open
             gap_extend := gap_extend
             match_fn := match_fn
             match_scores := Option.none }
    else
      Option.none
  else
    Option.none

/-- The validated `Scoring` built from flat scores, bypassing the `Option`
(used to state claims that quantify over "valid flat scorings"). -/
def Scoring.flat (gap_open gap_extend match_score mismatch_score : Int) : Scoring :=
  { gap_open := gap_open
    gap_extend := gap_extend
    match_fn := MatchParams.score ⟨match_score, mismatch_score⟩
    match_scores := some (match_score, mismatch_score) }

/-- `struct AlignmentResult` from `src/alignment.rs` (field `alignment`
holds the operation list). -/
structure AlignmentResult where
  alignment : List AlignmentOperation
  score : Int
  x : List Nat
  y : List Nat
  xstart : Nat
  ystart : Nat
  xend : Nat
  yend : Nat
  deriving DecidableEq, Repr

/-- The seeding loop of `cost_only` (`gotoh_space_efficient.rs` lines
159-164): starting from accumulator `t`, produce the `k` values
`t + ge, t + 2*ge, …, t + k*ge` written into `cc[1..=k]`. -/
def seedRow (ge : Int) : Nat → Int → List Int
  | 0, _ => []
  | k + 1, t => (t + ge) :: seedRow ge k (t + ge)

/-- Inner column loop of `cost_only` (`gotoh_space_efficient.rs` lines
173-189), one row.  Arguments: `xi` is the row character (`x[i-1]`, or
`x[m-i-1]` for the reverse sweep — the caller hands the characters over in
visit order), `ys` the remaining column characters in visit order, then the
scalars `e` (`I(i, j-1)`), `c` (`C(i, j-1)`), `s` (`C(i-1, j-1)`), and the
previous row's remaining `cc[j..]` and `dd[j..]`.  Returns the new
`cc[j..]` and `dd[j..]`. -/
def costRow (sc : Scoring) (xi : Nat) :
    List Nat → Int → Int → Int → List Int → List Int → List Int × List Int
  | [], _, _, _, _, _ => ([], [])
  | _ :: _, _, _, _, [], _ => ([], [])
  | _ :: _, _, _, _, _ :: _, [] => ([], [])
  | yj :: ys, e, c, s, ccj :: cc, ddj :: dd =>
    let e' := max e (c + sc.gap_open) + sc.gap_extend
    let d' := max ddj (ccj + sc.gap_open) + sc.gap_extend
    let c' := max (max d' e') (s + sc.match_fn xi yj)
    let rest := costRow sc xi ys e' c' ccj cc dd
    (c' :: rest.1, d' :: rest.2)

/-- Outer row loop of `cost_only` (`gotoh_space_efficient.rs` lines
166-190).  `xs` are the row characters in visit order, `t` the running
column-0 accumulator (seeded with `tx`), `cc`/`dd` the current vectors
(index 0 included). -/
def costRows (sc : Scoring) :
    List Nat → List Nat → Int → List Int → List Int → List Int × List Int
  | [], _, _, cc, dd => (cc, dd)
  | xi :: xs, ys, t, cc, dd =>
    let s := cc.headD 0
    let t' := t + sc.gap_extend
    let c := t'
    let rest := costRow sc xi ys scoreMIN c s cc.tail dd.tail
    costRows sc xs ys t' (c :: rest.1) (dd.headD 0 :: rest.2)

/-- `GotohSpaceEfficientAligner::cost_only` (`gotoh_space_efficient.rs`
lines 150-193).  Row 0 is seeded `cc[j] = gap_open + gap_extend*j`,
`dd[j] = Score::MIN` (`dd[0]` keeps its `vec![0; n]` initial value, as in
the source); the row loop visits `x[i-1]` and `y[j-1]` in the forward
sweep and `x[m-i-1]`, `y[n-j-1]` in the reverse sweep, i.e. the reversed
lists; after the last row `dd[0]` is forced equal to `cc[0]`. -/
def cost_only (sc : Scoring) (x y : List Nat) (rev : Bool) (tx : Int) :
    List Int × List Int :=
  let xs := if rev then x.reverse else x
  let ys := if rev then y.reverse else y
  let cc0 : List Int := 0 :: seedRow sc.gap_extend y.length sc.gap_open
  let dd0 : List Int := 0 :: List.replicate y.length scoreMIN
  let r := costRows sc xs ys tx cc0 dd0
  (r.1, r.1.headD 0 :: r.2.tail)

/-- The candidate-scan loop of `find_mid` (`gotoh_space_efficient.rs` lines
129-142): for each `j` (visited in increasing order) first the
match-join candidate `cc_upper[j] + cc_lower[n-j]`, then the deletion-join
candidate `dd_upper[j] + dd_lower[n-j] - gap_open`, each replacing the
running `(max, jmid, join_by_deletion)` state only on strictly-greater
score. -/
def findMidLoop (go : Int) (ccU ddU ccL ddL : List Int) (n : Nat) :
    List Nat → Int × Nat × Bool → Int × Nat × Bool
  | [], st => st
  | j :: js, (mx, jm, bd) =>
    let c := ccU.getD j 0 + ccL.getD (n - j) 0
    let st1 : Int × Nat × Bool := if mx < c then (c, j, false) else (mx, jm, bd)
    let d := ddU.getD j 0 + ddL.getD (n - j) 0 - go
    let st2 : Int × Nat × Bool := if st1.1 < d then (d, j, true) else st1
    findMidLoop go ccU ddU ccL ddL n js st2

/-- `GotohSpaceEfficientAligner::find_mid` (`gotoh_space_efficient.rs`
lines 114-144): split `x` at `imid = m/2`, sweep forward over the upper
half (seeded with `tb`) and backward over the lower half (seeded with
`te`), then scan columns `0..=n` for the best join. -/
def find_mid (sc : Scoring) (x y : List Nat) (m n : Nat) (tb te : Int) :
    Nat × Nat × Bool :=
  let imid := m / 2
  let upper := cost_only sc (x.take imid) y false tb
  let lower := cost_only sc (x.drop imid) y true te
  let st := findMidLoop sc.gap_open upper.1 upper.2 lower.1 lower.2 n
    (List.range (n + 1)) (scoreMIN, 0, false)
  (imid, st.2.1, st.2.2)

/-- The scan loop of `nw_onerow` (`gotoh_space_efficient.rs` lines
201-214): over `j_` in `0..n`, the one-substitution score at position
`j_`, replacing `(max, maxj_)` on strictly-greater score. -/
def oneRowLoop (sc : Scoring) (x : Nat) (y : List Nat) (n : Nat) (base : Int) :
    List Nat → Int × Nat → Int × Nat
  | [], st => st
  | j :: js, (mx, mj) =>
    let score := base + sc.match_fn x (y.getD j 0) +
      (if j = 0 ∨ j = n - 1 then 0 else sc.gap_open)
    let st1 : Int × Nat := if mx < score then (score, j) else (mx, mj)
    oneRowLoop sc x y n base js st1

/-- `GotohSpaceEfficientAligner::nw_onerow` (`gotoh_space_efficient.rs`
lines 194-237): closed-form alignment of the single character `x` against
`y` of length `n`; either one `Del` followed by `n` `Ins`, or `n - 1`
`Ins` around a single `Match`/`Subst` at the best position. -/
def nw_onerow (sc : Scoring) (x : Nat) (y : List Nat) (n : Nat) (tb te : Int) :
    List AlignmentOperation :=
  let score_by_indels_only :=
    max tb te + sc.gap_extend * ((n : Int) + 1) + sc.gap_open
  let score_with_one_substitution_base :=
    ((n : Int) - 1) * sc.gap_extend + sc.gap_open
  let st := oneRowLoop sc x y n score_with_one_substitution_base
    (List.range n) (score_by_indels_only, 0)
  if st.1 = score_by_indels_only then
    AlignmentOperation.Del :: List.replicate n AlignmentOperation.Ins
  else
    List.replicate st.2 AlignmentOperation.Ins ++
      ((if x = y.getD st.2 0 then AlignmentOperation.Match
        else AlignmentOperation.Subst) ::
        List.replicate (n - st.2 - 1) AlignmentOperation.Ins)

/-- `GotohSpaceEfficientAligner::compute_recursive`
(`gotoh_space_efficient.rs` lines 64-112), with an explicit structural
fuel standing for the Rust call stack (the recursion is on sub-slices of
`x`, not structurally decreasing; `compute_recursiveF_fuel` below proves
any fuel above `x.length` gives the same answer, i.e. the recursion
terminates without ever reaching the out-of-fuel branch). -/
def compute_recursiveF (sc : Scoring) :
    Nat → List Nat → List Nat → Int → Int → List AlignmentOperation
  | 0, _, _, _, _ => []
  | fuel + 1, x, y, tb, te =>
    let m := x.length
    let n := y.length
    if n = 0 then
      List.replicate m AlignmentOperation.Del
    else if m = 0 then
      List.replicate n AlignmentOperation.Ins
    else if m = 1 then
      nw_onerow sc (x.headD 0) y n tb te
    else
      let mid := find_mid sc x y m n tb te
      let imid := mid.1
      let jmid := mid.2.1
      if mid.2.2 then
        compute_recursiveF sc fuel (x.take (imid - 1)) (y.take jmid) tb 0 ++
          (AlignmentOperation.Del :: AlignmentOperation.Del ::
            compute_recursiveF sc fuel (x.drop (imid + 1)) (y.drop jmid) 0 te)
      else
        compute_recursiveF sc fuel (x.take imid) (y.take jmid) tb sc.gap_open ++
          compute_recursiveF sc fuel (x.drop imid) (y.drop jmid) 0 sc.gap_open

/-- `compute_recursive` at its canonical (sufficient) fuel. -/
def compute_recursive (sc : Scoring) (x y : List Nat) (tb te : Int) :
    List AlignmentOperation :=
  compute_recursiveF sc (x.length + 1) x y tb te

/-- `GotohSpaceEfficientAligner::global` (`gotoh_space_efficient.rs` lines
42-62). -/
def global (sc : Scoring) (x y : List Nat) : AlignmentResult :=
  let operations := compute_recursive sc x y sc.gap_open sc.gap_open
  let score := (cost_only sc x y false sc.gap_open).1.getD y.length 0
  { alignment := operations
    score := score
    x := x
    y := y
    xstart := 0
    ystart := 0
    xend := x.length
    yend := y.length }

/-- Replay loop of `AlignmentResult::as_strings` (`src/alignment.rs` lines
22-42): cursors `i`, `j` into `x`, `y`; `Del` emits `(x[i], gap)`, `Ins`
emits `(gap, y[j])`, `Subst`/`Match` emit `(x[i], y[j])`, `None` emits
nothing. -/
def asStringsGo (x y : List Nat) (gap_char : Nat) :
    List AlignmentOperation → Nat → Nat → List Nat × List Nat
  | [], _, _ => ([], [])
  | AlignmentOperation.Del :: ops, i, j =>
    let rest := asStringsGo x y gap_char ops (i + 1) j
    (x.getD i 0 :: rest.1, gap_char :: rest.2)
  | AlignmentOperation.Ins :: ops, i, j =>
    let rest := asStringsGo x y gap_char ops i (j + 1)
    (gap_char :: rest.1, y.getD j 0 :: rest.2)
  | AlignmentOperation.Subst :: ops, i, j =>
    let rest := asStringsGo x y gap_char ops (i + 1) (j + 1)
    (x.getD i 0 :: rest.1, y.getD j 0 :: rest.2)
  | AlignmentOperation.Match :: ops, i, j =>
    let rest := asStringsGo x y gap_char ops (i + 1) (j + 1)
    (x.getD i 0 :: rest.1, y.getD j 0 :: rest.2)
  | AlignmentOperation.None :: ops, i, j =>
    asStringsGo x y gap_char ops i j

/-- `AlignmentResult::as_strings` (`src/alignment.rs` lines 16-48); the two
returned "strings" are byte lists. -/
def as_strings (r : AlignmentResult) (gap_char : Nat) : List Nat × List Nat :=
  asStringsGo r.x r.y gap_char r.alignment r.xstart r.ystart

/-- Number of `x` symbols an operation list consumes on replay
(`Del`/`Subst`/`Match` advance the `x` cursor). -/
def consumedX : List AlignmentOperation → Nat
  | [] => 0
  | AlignmentOperation.Del :: ops => consumedX ops + 1
  | AlignmentOperation.Ins :: ops => consumedX ops
  | AlignmentOperation.Subst :: ops => consumedX ops + 1
  | AlignmentOperation.Match :: ops => consumedX ops + 1
  | AlignmentOperation.None :: ops => consumedX ops

/-- Number of `y` symbols an operation list consumes on replay
(`Ins`/`Subst`/`Match` advance the `y` cursor). -/
def consumedY : List AlignmentOperation → Nat
  | [] => 0
  | AlignmentOperation.Del :: ops => consumedY ops
  | AlignmentOperation.Ins :: ops => consumedY ops + 1
  | AlignmentOperation.Subst :: ops => consumedY ops + 1
  | AlignmentOperation.Match :: ops => consumedY ops + 1
  | AlignmentOperation.None :: ops => consumedY ops

/-- Modelled from the spec: the score an operation list realises under the
affine gap model — each `Subst`/`Match` is charged `match_fn` on the two
symbols under the cursors, and each maximal run of `k` `Del` (resp. `Ins`)
is charged `gap_open + gap_extend * k`.  `prev` is the preceding
operation, used to detect run starts. -/
def opsScoreGo (sc : Scoring) (x y : List Nat) :
    List AlignmentOperation → Nat → Nat → AlignmentOperation → Int
  | [], _, _, _ => 0
  | AlignmentOperation.Del :: ops, i, j, prev =>
    (if prev = AlignmentOperation.Del then 0 else sc.gap_open) + sc.gap_extend +
      opsScoreGo sc x y ops (i + 1) j AlignmentOperation.Del
  | AlignmentOperation.Ins :: ops, i, j, prev =>
    (if prev = AlignmentOperation.Ins then 0 else sc.gap_open) + sc.gap_extend +
      opsScoreGo sc x y ops i (j + 1) AlignmentOperation.Ins
  | AlignmentOperation.Subst :: ops, i, j, _ =>
    sc.match_fn (x.getD i 0) (y.getD j 0) +
      opsScoreGo sc x y ops (i + 1) (j + 1) AlignmentOperation.Subst
  | AlignmentOperation.Match :: ops, i, j, _ =>
    sc.match_fn (x.getD i 0) (y.getD j 0) +
      opsScoreGo sc x y ops (i + 1) (j + 1) AlignmentOperation.Match
  | AlignmentOperation.None :: ops, i, j, _ =>
    opsScoreGo sc x y ops i j AlignmentOperation.None

/-- Modelled from the spec: total affine-model score of an operation list
replayed from the start of `x` and `y`. -/
def opsScore (sc : Scoring) (x y : List Nat) (ops : List AlignmentOperation) : Int :=
  opsScoreGo sc x y ops 0 0 AlignmentOperation.None

/-- Reference quadratic-space Gotoh dynamic program, written directly from
the recurrence (spec section 4.2 / 8): the value at `(i, j)` is the triple
`(C i j, D i j, I i j)` — best score of aligning the first `i` symbols of
`x` against the first `j` of `y` ending in a match/substitution (or on a
boundary), in a deletion run, or in an insertion run.  Boundaries:
`C 0 j = gap_open + gap_extend*j`, `C i 0 = tx + gap_extend*i` (the
parameter `tx` is the terminal gap-open contribution used for a gap lying
against the start of `x`; the standard reference takes `tx = gap_open`),
and impossible gap states hold the sentinel `Score::MIN`. -/
def gotohTx (sc : Scoring) (tx : Int) (x y : List Nat) : Nat → Nat → Int × Int × Int
  | 0, 0 => (0, scoreMIN, scoreMIN)
  | 0, j + 1 => (sc.gap_open + sc.gap_extend * ((j : Int) + 1), scoreMIN, scoreMIN)
  | i + 1, 0 => (tx + sc.gap_extend * ((i : Int) + 1), scoreMIN, scoreMIN)
  | i + 1, j + 1 =>
    let up := gotohTx sc tx x y i (j + 1)
    let left := gotohTx sc tx x y (i + 1) j
    let diag := gotohTx sc tx x y i j
    let d := max up.2.1 (up.1 + sc.gap_open) + sc.gap_extend
    let e := max left.2.2 (left.1 + sc.gap_open) + sc.gap_extend
    let c := max (max d e) (diag.1 + sc.match_fn (x.getD i 0) (y.getD j 0))
    (c, d, e)

/-- Modelled from the spec: the full quadratic-space reference Gotoh
dynamic program with the standard affine boundary (a gap of length `k`
lying against either boundary costs `gap_open + gap_extend*k`), i.e. the
parametric reference at `tx = gap_open`. -/
def gotohReference (sc : Scoring) (x y : List Nat) (i j : Nat) : Int × Int × Int :=
  gotohTx sc sc.gap_open x y i j

theorem gotohTx_zero_zero (sc : Scoring) (tx : Int) (x y : List Nat) :
    gotohTx sc tx x y 0 0 = (0, scoreMIN, scoreMIN) := by
  simp [gotohTx]

theorem gotohTx_zero_succ (sc : Scoring) (tx : Int) (x y : List Nat) (j : Nat) :
    gotohTx sc tx x y 0 (j + 1) =
      (sc.gap_open + sc.gap_extend * ((j : Int) + 1), scoreMIN, scoreMIN) := by
  simp [gotohTx]

theorem gotohTx_succ_zero (sc : Scoring) (tx : Int) (x y : List Nat) (i : Nat) :
    gotohTx sc tx x y (i + 1) 0 =
      (tx + sc.gap_extend * ((i : Int) + 1), scoreMIN, scoreMIN) := by
  simp [gotohTx]

theorem gotohTx_succ_succ (sc : Scoring) (tx : Int) (x y : List Nat) (i j : Nat) :
    gotohTx sc tx x y (i + 1) (j + 1) =
      (max
        (max (max (gotohTx sc tx x y i (j + 1)).2.1
            ((gotohTx sc tx x y i (j + 1)).1 + sc.gap_open) + sc.gap_extend)
          (max (gotohTx sc tx x y (i + 1) j).2.2
            ((gotohTx sc tx x y (i + 1) j).1 + sc.gap_open) + sc.gap_extend))
        ((gotohTx sc tx x y i j).1 + sc.match_fn (x.getD i 0) (y.getD j 0)),
      max (gotohTx sc tx x y i (j + 1)).2.1
        ((gotohTx sc tx x y i (j + 1)).1 + sc.gap_open) + sc.gap_extend,
      max (gotohTx sc tx x y (i + 1) j).2.2
        ((gotohTx sc tx x y (i + 1) j).1 + sc.gap_open) + sc.gap_extend) := by
  simp [gotohTx]

/-- Segment `[C i j0, C i (j0+1), …]` of length `k` of row `i` of the
reference DP (first components). -/
def rowC (sc : Scoring) (tx : Int) (x y : List Nat) (i j0 k : Nat) : List Int :=
  (List.range k).map fun t => (gotohTx sc tx x y i (j0 + t)).1

/-- Segment of length `k` of row `i` of the reference DP, deletion
components. -/
def rowD (sc : Scoring) (tx : Int) (x y : List Nat) (i j0 k : Nat) : List Int :=
  (List.range k).map fun t => (gotohTx sc tx x y i (j0 + t)).2.1

theorem range_map_succ_cons {α : Type} (f : Nat → α) (k : Nat) :
    (List.range (k + 1)).map f = f 0 :: (List.range k).map (fun t => f (t + 1)) := by
  rw [List.range_succ_eq_map, List.map_cons, List.map_map]
  rfl

theorem list_eq_map_range (l : List Nat) :
    l = (List.range l.length).map (fun i => l.getD i 0) := by
  induction l with
  | nil => rfl
  | cons a l ih =>
    rw [List.length_cons, range_map_succ_cons]
    simp only [List.getD_cons_zero, List.getD_cons_succ, List.cons.injEq, true_and]
    exact ih


theorem seedRow_eq (ge : Int) (k : Nat) (t : Int) :
    seedRow ge k t = (List.range k).map (fun j : Nat => t + ge * ((j : Int) + 1)) := by
  induction k generalizing t with
  | zero => rfl
  | succ k ih =>
    rw [seedRow, List.range_succ_eq_map, List.map_cons, List.map_map, ih (t + ge)]
    refine congrArg₂ List.cons (by push_cast; ring) ?_
    refine List.map_congr_left fun j _ => ?_
    simp only [Function.comp]
    push_cast
    ring

theorem costRow_spec (sc : Scoring) (tx : Int) (x y : List Nat) (i : Nat) :
    ∀ (k j : Nat), j + k = y.length →
    costRow sc (x.getD i 0) ((List.range k).map fun t => y.getD (j + t) 0)
        (gotohTx sc tx x y (i + 1) j).2.2
        (gotohTx sc tx x y (i + 1) j).1
        (gotohTx sc tx x y i j).1
        (rowC sc tx x y i (j + 1) k)
        (rowD sc tx x y i (j + 1) k)
      = (rowC sc tx x y (i + 1) (j + 1) k, rowD sc tx x y (i + 1) (j + 1) k) := by
  intro k
  induction k with
  | zero => intro j _; rfl
  | succ k ih =>
    intro j hj
    simp only [rowC, rowD, range_map_succ_cons, Nat.add_zero]
    rw [costRow]
    have hC : max
        (max (max (gotohTx sc tx x y i (j + 1)).2.1
            ((gotohTx sc tx x y i (j + 1)).1 + sc.gap_open) + sc.gap_extend)
          (max (gotohTx sc tx x y (i + 1) j).2.2
            ((gotohTx sc tx x y (i + 1) j).1 + sc.gap_open) + sc.gap_extend))
        ((gotohTx sc tx x y i j).1 + sc.match_fn (x.getD i 0) (y.getD j 0))
        = (gotohTx sc tx x y (i + 1) (j + 1)).1 := by
      rw [gotohTx_succ_succ]
    have hD : max (gotohTx sc tx x y i (j + 1)).2.1
        ((gotohTx sc tx x y i (j + 1)).1 + sc.gap_open) + sc.gap_extend
        = (gotohTx sc tx x y (i + 1) (j + 1)).2.1 := by
      rw [gotohTx_succ_succ]
    have hE : max (gotohTx sc tx x y (i + 1) j).2.2
        ((gotohTx sc tx x y (i + 1) j).1 + sc.gap_open) + sc.gap_extend
        = (gotohTx sc tx x y (i + 1) (j + 1)).2.2 := by
      rw [gotohTx_succ_succ]
    rw [hC, hD, hE]
    have hys : (List.map (fun t => y.getD (j + (t + 1)) 0) (List.range k))
        = List.map (fun t => y.getD (j + 1 + t) 0) (List.range k) :=
      List.map_congr_left fun t _ => by congr 1; omega
    have hcc1 : (List.map (fun t => (gotohTx sc tx x y i (j + 1 + (t + 1))).1) (List.range k))
        = List.map (fun t => (gotohTx sc tx x y i (j + 1 + 1 + t)).1) (List.range k) :=
      List.map_congr_left fun t _ => by congr 2; omega
    have hdd1 : (List.map (fun t => (gotohTx sc tx x y i (j + 1 + (t + 1))).2.1) (List.range k))
        = List.map (fun t => (gotohTx sc tx x y i (j + 1 + 1 + t)).2.1) (List.range k) :=
      List.map_congr_left fun t _ => by congr 3; omega
    rw [hys, hcc1, hdd1]
    have ih' := ih (j + 1) (by omega)
    simp only [rowC, rowD] at ih'
    rw [ih']
    have hcc2 : (List.map (fun t => (gotohTx sc tx x y (i + 1) (j + 1 + (t + 1))).1) (List.range k))
        = List.map (fun t => (gotohTx sc tx x y (i + 1) (j + 1 + 1 + t)).1) (List.range k) :=
      List.map_congr_left fun t _ => by congr 2; omega
    have hdd2 : (List.map (fun t => (gotohTx sc tx x y (i + 1) (j + 1 + (t + 1))).2.1) (List.range k))
        = List.map (fun t => (gotohTx sc tx x y (i + 1) (j + 1 + 1 + t)).2.1) (List.range k) :=
      List.map_congr_left fun t _ => by congr 3; omega
    rw [hcc2, hdd2]

theorem costRows_spec (sc : Scoring) (tx : Int) (x y : List Nat) :
    ∀ (k i : Nat), i + k = x.length → ∀ (d0 : Int),
    costRows sc ((List.range k).map fun t => x.getD (i + t) 0) y
        (tx + sc.gap_extend * (i : Int))
        ((gotohTx sc tx x y i 0).1 :: rowC sc tx x y i 1 y.length)
        (d0 :: rowD sc tx x y i 1 y.length)
      = ((gotohTx sc tx x y x.length 0).1 :: rowC sc tx x y x.length 1 y.length,
         d0 :: rowD sc tx x y x.length 1 y.length) := by
  intro k
  induction k with
  | zero =>
    intro i hi d0
    obtain rfl : i = x.length := by omega
    rfl
  | succ k ih =>
    intro i hi d0
    rw [range_map_succ_cons, costRows]
    simp only [List.headD_cons, List.tail_cons, Nat.add_zero]
    have hc : tx + sc.gap_extend * (i : Int) + sc.gap_extend
        = (gotohTx sc tx x y (i + 1) 0).1 := by
      rw [gotohTx_succ_zero]
      push_cast
      ring
    rw [hc]
    have he : scoreMIN = (gotohTx sc tx x y (i + 1) 0).2.2 := by
      rw [gotohTx_succ_zero]
    rw [he]
    have hrow := costRow_spec sc tx x y i y.length 0 (by omega)
    simp only [rowC, rowD, Nat.zero_add] at hrow
    rw [← list_eq_map_range y] at hrow
    simp only [rowC, rowD]
    rw [hrow]
    have hxs : (List.map (fun t => x.getD (i + (t + 1)) 0) (List.range k))
        = List.map (fun t => x.getD (i + 1 + t) 0) (List.range k) :=
      List.map_congr_left fun t _ => by congr 1; omega
    rw [hxs]
    have ih' := ih (i + 1) (by omega) d0
    simp only [rowC, rowD] at ih'
    have ht : tx + sc.gap_extend * ((i + 1 : Nat) : Int)
        = (gotohTx sc tx x y (i + 1) 0).1 := by
      rw [gotohTx_succ_zero]
      push_cast
      ring
    rw [ht] at ih'
    rw [ih']

theorem rowC_length (sc : Scoring) (tx : Int) (x y : List Nat) (i j0 k : Nat) :
    (rowC sc tx x y i j0 k).length = k := by
  simp [rowC]

theorem rowD_length (sc : Scoring) (tx : Int) (x y : List Nat) (i j0 k : Nat) :
    (rowD sc tx x y i j0 k).length = k := by
  simp [rowD]

theorem rowC_getD (sc : Scoring) (tx : Int) (x y : List Nat) (i j0 k t : Nat)
    (ht : t < k) :
    (rowC sc tx x y i j0 k).getD t 0 = (gotohTx sc tx x y i (j0 + t)).1 := by
  rw [rowC, List.getD_eq_getElem?_getD, List.getElem?_map, List.getElem?_range ht]
  rfl

theorem rowD_getD (sc : Scoring) (tx : Int) (x y : List Nat) (i j0 k t : Nat)
    (ht : t < k) :
    (rowD sc tx x y i j0 k).getD t 0 = (gotohTx sc tx x y i (j0 + t)).2.1 := by
  rw [rowD, List.getD_eq_getElem?_getD, List.getElem?_map, List.getElem?_range ht]
  rfl


theorem cost_only_false_eq (sc : Scoring) (x y : List Nat) (tx : Int) :
    cost_only sc x y false tx
      = ((gotohTx sc tx x y x.length 0).1 :: rowC sc tx x y x.length 1 y.length,
         (gotohTx sc tx x y x.length 0).1 :: rowD sc tx x y x.length 1 y.length) := by
  have h0 := costRows_spec sc tx x y x.length 0 (by omega) 0
  simp only [Nat.zero_add] at h0
  rw [← list_eq_map_range x] at h0
  have htx : tx + sc.gap_extend * ((0 : Nat) : Int) = tx := by
    push_cast
    ring
  rw [htx] at h0
  have hseed : rowC sc tx x y 0 1 y.length
      = seedRow sc.gap_extend y.length sc.gap_open := by
    rw [seedRow_eq, rowC]
    refine List.map_congr_left fun t _ => ?_
    rw [show 1 + t = t + 1 from by omega, gotohTx_zero_succ]
  have hdd : rowD sc tx x y 0 1 y.length = List.replicate y.length scoreMIN := by
    rw [rowD]
    have hmap : (List.range y.length).map
        (fun t => (gotohTx sc tx x y 0 (1 + t)).2.1)
        = (List.range y.length).map (fun _ => scoreMIN) :=
      List.map_congr_left fun t _ => by
        rw [show 1 + t = t + 1 from by omega, gotohTx_zero_succ]
    rw [hmap, List.map_const']
    simp
  rw [hseed, hdd, gotohTx_zero_zero] at h0
  simp only [] at h0
  simp only [cost_only, Bool.false_eq_true, if_false]
  rw [h0]
  rfl

theorem cost_only_true_eq (sc : Scoring) (x y : List Nat) (tx : Int) :
    cost_only sc x y true tx = cost_only sc x.reverse y.reverse false tx := by
  simp [cost_only]

theorem cost_only_cc_getD (sc : Scoring) (x y : List Nat) (tx : Int) (j : Nat)
    (hj : j ≤ y.length) :
    (cost_only sc x y false tx).1.getD j 0 = (gotohTx sc tx x y x.length j).1 := by
  rw [cost_only_false_eq]
  cases j with
  | zero => rfl
  | succ j =>
    rw [List.getD_cons_succ, rowC_getD sc tx x y x.length 1 y.length j (by omega),
      Nat.add_comm 1 j]

theorem cost_only_dd_getD (sc : Scoring) (x y : List Nat) (tx : Int) (j : Nat)
    (hj1 : 1 ≤ j) (hj : j ≤ y.length) :
    (cost_only sc x y false tx).2.getD j 0 = (gotohTx sc tx x y x.length j).2.1 := by
  rw [cost_only_false_eq]
  cases j with
  | zero => omega
  | succ j =>
    rw [List.getD_cons_succ, rowD_getD sc tx x y x.length 1 y.length j (by omega),
      Nat.add_comm 1 j]

theorem cost_only_dd_getD_zero (sc : Scoring) (x y : List Nat) (tx : Int) :
    (cost_only sc x y false tx).2.getD 0 0 = (gotohTx sc tx x y x.length 0).1 := by
  rw [cost_only_false_eq]
  rfl

/-- The scoring of the repository documentation example:
`Scoring::from_scores(-5, -1, 2, -1)`. -/
def exampleScoring : Scoring := Scoring.flat (-5) (-1) 2 (-1)

/-- C1: for every scoring with `gap_open ≤ 0` and `gap_extend ≤ 0` and every
pair of byte sequences `x`, `y`, the `score` field returned by
`GotohSpaceEfficientAligner::global(x, y)` equals the optimal global
alignment score computed by the full quadratic-space reference Gotoh
dynamic program under the same affine gap model — exact integer
equality. -/
theorem global_score_eq_reference (sc : Scoring) (x y : List Nat)
    (hgo : sc.gap_open ≤ 0) (hge : sc.gap_extend ≤ 0) :
    (global sc x y).score = (gotohReference sc x y x.length y.length).1 := by
  show (cost_only sc x y false sc.gap_open).1.getD y.length 0 = _
  rw [cost_only_cc_getD sc x y sc.gap_open y.length (le_refl _)]
  rfl

/-- Witness for C1: the hypotheses hold and the theorem applies at the
documentation example. -/
theorem global_score_eq_reference_witness :
    (global exampleScoring [97, 116, 103] [97, 103]).score
      = (gotohReference exampleScoring [97, 116, 103] [97, 103] 3 2).1 :=
  global_score_eq_reference exampleScoring [97, 116, 103] [97, 103]
    (by decide) (by decide)

/-- C2 (code bug): at the documentation-example scoring and
`x = b"aab"`, `y = b"aa"`, `global` returns the operation list
`[Match, Del, Subst]`: replaying it consumes all of `x` and `y`, but its
affine-model score is `-5`, while the result's `score` field (the true
optimum, matching the cost-only sweep) is `-2`.  The returned operations
are suboptimal, so the claimed invariant "score recomputed from the
operations equals the score field" fails on the code. -/
theorem global_ops_score_mismatch :
    (global exampleScoring [97, 97, 98] [97, 97]).alignment
      = [AlignmentOperation.Match, AlignmentOperation.Del, AlignmentOperation.Subst] ∧
    (global exampleScoring [97, 97, 98] [97, 97]).score = -2 ∧
    consumedX (global exampleScoring [97, 97, 98] [97, 97]).alignment = 3 ∧
    consumedY (global exampleScoring [97, 97, 98] [97, 97]).alignment = 2 ∧
    opsScore exampleScoring [97, 97, 98] [97, 97]
        (global exampleScoring [97, 97, 98] [97, 97]).alignment = -5 := by
  decide

/-- C5: `Scoring::new` succeeds exactly when `gap_open ≤ 0` and
`gap_extend ≤ 0`; `Scoring::from_scores` succeeds exactly when additionally
`match_score ≥ 0` and `mismatch_score ≤ 0`; otherwise construction fails
(`InvalidScoring`, modelled as `Option.none`). -/
theorem scoring_constructors_validate (go ge ms mms : Int) (f : Nat → Nat → Int) :
    ((Scoring.new go ge f).isSome ↔ (go ≤ 0 ∧ ge ≤ 0)) ∧
    ((Scoring.from_scores go ge ms mms).isSome
      ↔ (go ≤ 0 ∧ ge ≤ 0 ∧ 0 ≤ ms ∧ mms ≤ 0)) := by
  constructor
  · unfold Scoring.new
    split_ifs <;> simp_all
  · unfold Scoring.from_scores MatchParams.new
    split_ifs <;> simp_all

/-- C6 counterexample: the initial `cc` row (observable as the output of
`cost_only` on an empty `x`) is seeded with the gap cost beginning at
`gap_open`, not at the caller-supplied `tx`: with `tx = 0` and the example
scoring, `cc[1] = gap_open + gap_extend = -6`, not `tx + gap_extend = -1`
as the claim would have it. -/
theorem cost_only_row0_not_seeded_by_tx :
    (cost_only exampleScoring [] [97] false 0).1.getD 1 0 = -6 ∧
    ¬((cost_only exampleScoring [] [97] false 0).1.getD 1 0
        = 0 + exampleScoring.gap_extend * 1) := by
  decide

/-- C6 amended: in the cost-only sweep, row 0 is seeded by the affine-gap
formula beginning at `gap_open`, column 0 (`cc[0]` across rows) is seeded
beginning at the caller-supplied `tx`, and after the final row `dd[0]`
equals `cc[0]`. -/
theorem cost_only_seeding (sc : Scoring) (x y : List Nat) (tx : Int) (j : Nat)
    (hj1 : 1 ≤ j) (hj : j ≤ y.length) :
    ((cost_only sc [] y false tx).1.getD j 0
        = sc.gap_open + sc.gap_extend * (j : Int)) ∧
    (x ≠ [] → (cost_only sc x y false tx).1.getD 0 0
        = tx + sc.gap_extend * (x.length : Int)) ∧
    ((cost_only sc x y false tx).2.getD 0 0
        = (cost_only sc x y false tx).1.getD 0 0) := by
  refine ⟨?_, ?_, ?_⟩
  · rw [cost_only_cc_getD sc [] y tx j hj]
    obtain ⟨j', rfl⟩ : ∃ j', j = j' + 1 := ⟨j - 1, by omega⟩
    rw [show ([] : List Nat).length = 0 from rfl, gotohTx_zero_succ]
    push_cast
    ring
  · intro hx
    rw [cost_only_cc_getD sc x y tx 0 (by omega)]
    obtain ⟨i', hi⟩ : ∃ i', x.length = i' + 1 :=
      ⟨x.length - 1, by cases x <;> simp_all⟩
    rw [hi, gotohTx_succ_zero]
    push_cast
    ring
  · rw [cost_only_dd_getD_zero, cost_only_cc_getD sc x y tx 0 (by omega)]

/-- Witness for C6's amended statement at the example scoring. -/
theorem cost_only_seeding_witness :
    ((cost_only exampleScoring [] [97] false 0).1.getD 1 0
        = exampleScoring.gap_open + exampleScoring.gap_extend * 1) ∧
    ([97] ≠ ([] : List Nat) → (cost_only exampleScoring [97] [97] false 0).1.getD 0 0
        = 0 + exampleScoring.gap_extend * 1) ∧
    ((cost_only exampleScoring [97] [97] false 0).2.getD 0 0
        = (cost_only exampleScoring [97] [97] false 0).1.getD 0 0) :=
  ⟨(cost_only_seeding exampleScoring [97] [97] 0 1 (by decide) (by decide)).1,
   (cost_only_seeding exampleScoring [97] [97] 0 1 (by decide) (by decide)).2.1,
   (cost_only_seeding exampleScoring [97] [97] 0 1 (by decide) (by decide)).2.2⟩

/-- C9: global alignment of the empty sequence against a nonempty `s` of
length `k` scores `gap_open + gap_extend*k` with exactly `k` Insertions,
and of `s` against the empty sequence scores the same with exactly `k`
Deletions. -/
theorem global_empty_gap_runs (sc : Scoring) (s : List Nat)
    (hgo : sc.gap_open ≤ 0) (hge : sc.gap_extend ≤ 0) (hs : s ≠ []) :
    ((global sc [] s).score = sc.gap_open + sc.gap_extend * (s.length : Int) ∧
      (global sc [] s).alignment = List.replicate s.length AlignmentOperation.Ins) ∧
    ((global sc s []).score = sc.gap_open + sc.gap_extend * (s.length : Int) ∧
      (global sc s []).alignment = List.replicate s.length AlignmentOperation.Del) := by
  obtain ⟨k, hk⟩ : ∃ k, s.length = k + 1 := ⟨s.length - 1, by cases s <;> simp_all⟩
  refine ⟨⟨?_, ?_⟩, ?_, ?_⟩
  · show (cost_only sc [] s false sc.gap_open).1.getD s.length 0 = _
    rw [cost_only_cc_getD sc [] s sc.gap_open s.length (le_refl _),
      show ([] : List Nat).length = 0 from rfl, hk, gotohTx_zero_succ]
    push_cast
    ring
  · show compute_recursiveF sc 1 [] s sc.gap_open sc.gap_open = _
    rw [compute_recursiveF]
    simp [hs]
  · show (cost_only sc s [] false sc.gap_open).1.getD 0 0 = _
    rw [cost_only_cc_getD sc s [] sc.gap_open 0 (by omega), hk, gotohTx_succ_zero]
    push_cast
    ring
  · show compute_recursiveF sc (s.length + 1) s [] sc.gap_open sc.gap_open = _
    rw [hk, compute_recursiveF]
    simp [hk]

/-- Witness for C9 at the example scoring and `s = b"atg"`. -/
theorem global_empty_gap_runs_witness :
    (global exampleScoring [] [97, 116, 103]).score
        = exampleScoring.gap_open + exampleScoring.gap_extend * 3 ∧
    (global exampleScoring [97, 116, 103] []).alignment
        = List.replicate 3 AlignmentOperation.Del :=
  ⟨((global_empty_gap_runs exampleScoring [97, 116, 103] (by decide) (by decide)
      (by decide)).1).1,
   ((global_empty_gap_runs exampleScoring [97, 116, 103] (by decide) (by decide)
      (by decide)).2).2⟩

theorem consumedX_append (a b : List AlignmentOperation) :
    consumedX (a ++ b) = consumedX a + consumedX b := by
  induction a with
  | nil => simp [consumedX]
  | cons op a ih => cases op <;> simp [consumedX, ih] <;> omega

theorem consumedY_append (a b : List AlignmentOperation) :
    consumedY (a ++ b) = consumedY a + consumedY b := by
  induction a with
  | nil => simp [consumedY]
  | cons op a ih => cases op <;> simp [consumedY, ih] <;> omega

theorem consumedX_replicate_Ins (k : Nat) :
    consumedX (List.replicate k AlignmentOperation.Ins) = 0 := by
  induction k with
  | zero => rfl
  | succ k ih => simpa [List.replicate_succ, consumedX] using ih

theorem consumedX_replicate_Del (k : Nat) :
    consumedX (List.replicate k AlignmentOperation.Del) = k := by
  induction k with
  | zero => rfl
  | succ k ih => simp [List.replicate_succ, consumedX, ih]

theorem consumedY_replicate_Ins (k : Nat) :
    consumedY (List.replicate k AlignmentOperation.Ins) = k := by
  induction k with
  | zero => rfl
  | succ k ih => simp [List.replicate_succ, consumedY, ih]

theorem consumedY_replicate_Del (k : Nat) :
    consumedY (List.replicate k AlignmentOperation.Del) = 0 := by
  induction k with
  | zero => rfl
  | succ k ih => simpa [List.replicate_succ, consumedY] using ih

theorem oneRowLoop_snd_lt (sc : Scoring) (x : Nat) (y : List Nat) (n : Nat)
    (base : Int) :
    ∀ (js : List Nat) (st : Int × Nat), st.2 < n → (∀ j ∈ js, j < n) →
    (oneRowLoop sc x y n base js st).2 < n := by
  intro js
  induction js with
  | nil => intro st h _; exact h
  | cons j js ih =>
    intro st h hmem
    rw [oneRowLoop]
    obtain ⟨mx, mj⟩ := st
    dsimp only
    split_ifs <;>
      first
        | exact ih _ (hmem j (by simp)) fun j' hj' => hmem j' (by simp [hj'])
        | exact ih _ h fun j' hj' => hmem j' (by simp [hj'])

theorem consumed_onerow_shape (j k : Nat) (op : AlignmentOperation)
    (hop : op = AlignmentOperation.Match ∨ op = AlignmentOperation.Subst) :
    consumedX (List.replicate j AlignmentOperation.Ins ++
        op :: List.replicate k AlignmentOperation.Ins) = 1 ∧
    consumedY (List.replicate j AlignmentOperation.Ins ++
        op :: List.replicate k AlignmentOperation.Ins) = j + 1 + k := by
  rcases hop with rfl | rfl <;>
    simp [consumedX_append, consumedY_append, consumedX, consumedY,
      consumedX_replicate_Ins, consumedY_replicate_Ins] <;> omega

theorem nw_onerow_consumed (sc : Scoring) (x : Nat) (y : List Nat) (n : Nat)
    (tb te : Int) (hn : 1 ≤ n) :
    consumedX (nw_onerow sc x y n tb te) = 1 ∧
    consumedY (nw_onerow sc x y n tb te) = n := by
  rw [nw_onerow]
  generalize hst : oneRowLoop sc x y n (((n : Int) - 1) * sc.gap_extend + sc.gap_open)
      (List.range n)
      (max tb te + sc.gap_extend * ((n : Int) + 1) + sc.gap_open, 0) = st
  have hlt : st.2 < n := by
    rw [← hst]
    refine oneRowLoop_snd_lt sc x y n _ (List.range n) _ (by omega)
      fun j hj => List.mem_range.mp hj
  obtain ⟨mx, mj⟩ := st
  split_ifs with h1 h2
  · exact ⟨by simp [consumedX, consumedX_replicate_Ins],
      by simp [consumedY, consumedY_replicate_Ins]⟩
  · have hshape := consumed_onerow_shape mj (n - mj - 1) AlignmentOperation.Match
      (Or.inl rfl)
    refine ⟨hshape.1, ?_⟩
    rw [hshape.2]
    simp only at hlt
    omega
  · have hshape := consumed_onerow_shape mj (n - mj - 1) AlignmentOperation.Subst
      (Or.inr rfl)
    refine ⟨hshape.1, ?_⟩
    rw [hshape.2]
    simp only at hlt
    omega

theorem compute_recursiveF_consumed (sc : Scoring) :
    ∀ (fuel : Nat) (x y : List Nat) (tb te : Int), x.length < fuel →
    consumedX (compute_recursiveF sc fuel x y tb te) = x.length ∧
    consumedY (compute_recursiveF sc fuel x y tb te) = y.length := by
  intro fuel
  induction fuel with
  | zero => intro x y tb te h; omega
  | succ fuel ih =>
    intro x y tb te h
    rw [compute_recursiveF]
    by_cases hn : y.length = 0
    · rw [if_pos hn, hn]
      exact ⟨consumedX_replicate_Del x.length, consumedY_replicate_Del x.length⟩
    rw [if_neg hn]
    by_cases hm : x.length = 0
    · rw [if_pos hm, hm]
      exact ⟨consumedX_replicate_Ins y.length, consumedY_replicate_Ins y.length⟩
    rw [if_neg hm]
    by_cases hm1 : x.length = 1
    · rw [if_pos hm1, hm1]
      exact nw_onerow_consumed sc (x.headD 0) y y.length tb te (by omega)
    rw [if_neg hm1]
    have himid : (find_mid sc x y x.length y.length tb te).1 = x.length / 2 := rfl
    by_cases hbd : (find_mid sc x y x.length y.length tb te).2.2
    · rw [if_pos hbd]
      have h1 := ih (x.take ((find_mid sc x y x.length y.length tb te).1 - 1))
        (y.take (find_mid sc x y x.length y.length tb te).2.1) tb 0
        (by simp [List.length_take]; omega)
      have h2 := ih (x.drop ((find_mid sc x y x.length y.length tb te).1 + 1))
        (y.drop (find_mid sc x y x.length y.length tb te).2.1) 0 te
        (by simp [List.length_drop]; omega)
      constructor
      · rw [consumedX_append, h1.1, consumedX, consumedX, h2.1,
          List.length_take, List.length_drop]
        omega
      · rw [consumedY_append, h1.2, consumedY, consumedY, h2.2,
          List.length_take, List.length_drop]
        omega
    · rw [if_neg hbd]
      have h1 := ih (x.take (find_mid sc x y x.length y.length tb te).1)
        (y.take (find_mid sc x y x.length y.length tb te).2.1) tb sc.gap_open
        (by simp [List.length_take]; omega)
      have h2 := ih (x.drop (find_mid sc x y x.length y.length tb te).1)
        (y.drop (find_mid sc x y x.length y.length tb te).2.1) 0 sc.gap_open
        (by simp [List.length_drop]; omega)
      constructor
      · rw [consumedX_append, h1.1, h2.1, List.length_take, List.length_drop]
        omega
      · rw [consumedY_append, h1.2, h2.2, List.length_take, List.length_drop]
        omega

theorem compute_recursiveF_fuel (sc : Scoring) :
    ∀ (fuel fuel' : Nat) (x y : List Nat) (tb te : Int),
    x.length < fuel → x.length < fuel' →
    compute_recursiveF sc fuel x y tb te = compute_recursiveF sc fuel' x y tb te := by
  intro fuel
  induction fuel with
  | zero => intro fuel' x y tb te h; omega
  | succ fuel ih =>
    intro fuel' x y tb te h h'
    obtain ⟨fuel'', rfl⟩ : ∃ k, fuel' = k + 1 := ⟨fuel' - 1, by omega⟩
    rw [compute_recursiveF, compute_recursiveF]
    by_cases hn : y.length = 0
    · rw [if_pos hn, if_pos hn]
    rw [if_neg hn, if_neg hn]
    by_cases hm : x.length = 0
    · rw [if_pos hm, if_pos hm]
    rw [if_neg hm, if_neg hm]
    by_cases hm1 : x.length = 1
    · rw [if_pos hm1, if_pos hm1]
    rw [if_neg hm1, if_neg hm1]
    have himid : (find_mid sc x y x.length y.length tb te).1 = x.length / 2 := rfl
    by_cases hbd : (find_mid sc x y x.length y.length tb te).2.2
    · rw [if_pos hbd, if_pos hbd]
      rw [ih fuel'' (x.take ((find_mid sc x y x.length y.length tb te).1 - 1))
          (y.take (find_mid sc x y x.length y.length tb te).2.1) tb 0
          (by simp [List.length_take]; omega) (by simp [List.length_take]; omega),
        ih fuel'' (x.drop ((find_mid sc x y x.length y.length tb te).1 + 1))
          (y.drop (find_mid sc x y x.length y.length tb te).2.1) 0 te
          (by simp [List.length_drop]; omega) (by simp [List.length_drop]; omega)]
    · rw [if_neg hbd, if_neg hbd]
      rw [ih fuel'' (x.take (find_mid sc x y x.length y.length tb te).1)
          (y.take (find_mid sc x y x.length y.length tb te).2.1) tb sc.gap_open
          (by simp [List.length_take]; omega) (by simp [List.length_take]; omega),
        ih fuel'' (x.drop (find_mid sc x y x.length y.length tb te).1)
          (y.drop (find_mid sc x y x.length y.length tb te).2.1) 0 sc.gap_open
          (by simp [List.length_drop]; omega) (by simp [List.length_drop]; omega)]

theorem global_consumed (sc : Scoring) (x y : List Nat) :
    consumedX (global sc x y).alignment = x.length ∧
    consumedY (global sc x y).alignment = y.length :=
  compute_recursiveF_consumed sc (x.length + 1) x y sc.gap_open sc.gap_open
    (by omega)

/-- C4: the aligner is total — the recursion reaches a result under any
sufficient fuel (so the Rust recursion terminates), the result replays to
consume exactly the two input sequences for every input (so every internal
index stays in range), and aligning two empty sequences yields an empty
operation list with score `0`. -/
theorem global_total_and_empty (sc : Scoring) :
    (∀ (x y : List Nat) (fuel : Nat), x.length < fuel →
      compute_recursiveF sc fuel x y sc.gap_open sc.gap_open
        = (global sc x y).alignment) ∧
    (∀ x y : List Nat, consumedX (global sc x y).alignment = x.length ∧
      consumedY (global sc x y).alignment = y.length) ∧
    (global sc [] []).alignment = [] ∧ (global sc [] []).score = 0 := by
  refine ⟨?_, ?_, ?_, ?_⟩
  · intro x y fuel hf
    exact compute_recursiveF_fuel sc fuel (x.length + 1) x y sc.gap_open
      sc.gap_open hf (by omega)
  · intro x y
    exact global_consumed sc x y
  · rfl
  · rfl

/-- Witness for C4 at the example scoring. -/
theorem global_total_and_empty_witness :
    compute_recursiveF exampleScoring 5 [97] [98] exampleScoring.gap_open
        exampleScoring.gap_open = (global exampleScoring [97] [98]).alignment ∧
    (global exampleScoring [] []).alignment = [] ∧
    (global exampleScoring [] []).score = 0 :=
  ⟨(global_total_and_empty exampleScoring).1 [97] [98] 5 (by decide),
   (global_total_and_empty exampleScoring).2.2.1,
   (global_total_and_empty exampleScoring).2.2.2⟩

/-- Number of operations other than `None` in an operation list (each such
operation emits exactly one symbol per output string in `as_strings`). -/
def nonNoneCount : List AlignmentOperation → Nat
  | [] => 0
  | AlignmentOperation.None :: ops => nonNoneCount ops
  | _ :: ops => nonNoneCount ops + 1

theorem asStringsGo_lengths (x y : List Nat) (gc : Nat) :
    ∀ (ops : List AlignmentOperation) (i j : Nat),
    (asStringsGo x y gc ops i j).1.length = nonNoneCount ops ∧
    (asStringsGo x y gc ops i j).2.length = nonNoneCount ops := by
  intro ops
  induction ops with
  | nil => intro i j; exact ⟨rfl, rfl⟩
  | cons op ops ih =>
    intro i j
    cases op <;> simp [asStringsGo, nonNoneCount, (ih _ _).1, (ih _ _).2]

/-- C10: the two strings returned by `as_strings` have equal length, each
equal to the number of non-`None` operations in the alignment. -/
theorem as_strings_lengths (r : AlignmentResult) (gap_char : Nat) :
    (as_strings r gap_char).1.length = nonNoneCount r.alignment ∧
    (as_strings r gap_char).2.length = nonNoneCount r.alignment :=
  asStringsGo_lengths r.x r.y gap_char r.alignment r.xstart r.ystart

/-- Remove every occurrence of the gap character (the "stripping" of the
claim about `as_strings`). -/
def stripGaps (gap_char : Nat) (s : List Nat) : List Nat :=
  s.filter fun c => c ≠ gap_char

/-- C3 counterexample: with gap character 97 (`'a'`), which also occurs in
`x = [97]`, stripping the gap character from the first output of
`as_strings` does not recover `x`. -/
theorem as_strings_strip_gap_collision :
    stripGaps 97 (as_strings (global exampleScoring [97] []) 97).1 = [] ∧
    ¬(stripGaps 97 (as_strings (global exampleScoring [97] []) 97).1 = [97]) := by
  decide

theorem asStringsGo_strip_x (x y : List Nat) (gc : Nat) (hx : gc ∉ x) :
    ∀ (ops : List AlignmentOperation) (i j : Nat), i + consumedX ops ≤ x.length →
    stripGaps gc (asStringsGo x y gc ops i j).1 = (x.drop i).take (consumedX ops) := by
  intro ops
  induction ops with
  | nil => intro i j _; simp [asStringsGo, stripGaps, consumedX]
  | cons op ops ih =>
    intro i j hle
    cases op with
    | Del =>
      have hi : i < x.length := by simp [consumedX] at hle; omega
      have hne : x.getD i 0 ≠ gc := by
        rw [List.getD_eq_getElem x 0 hi]
        intro hcontra
        exact hx (hcontra ▸ List.getElem_mem hi)
      rw [asStringsGo]
      simp only [stripGaps] at ih ⊢
      rw [List.filter_cons_of_pos (by simpa using hne),
        List.drop_eq_getElem_cons hi]
      simp only [consumedX, List.take_succ_cons]
      rw [ih (i + 1) j (by simp [consumedX] at hle; omega),
        List.getD_eq_getElem x 0 hi]
    | Ins =>
      rw [asStringsGo]
      simp only [stripGaps] at ih ⊢
      rw [List.filter_cons_of_neg (by simp)]
      simp only [consumedX]
      exact ih i (j + 1) (by simpa [consumedX] using hle)
    | Subst =>
      have hi : i < x.length := by simp [consumedX] at hle; omega
      have hne : x.getD i 0 ≠ gc := by
        rw [List.getD_eq_getElem x 0 hi]
        intro hcontra
        exact hx (hcontra ▸ List.getElem_mem hi)
      rw [asStringsGo]
      simp only [stripGaps] at ih ⊢
      rw [List.filter_cons_of_pos (by simpa using hne),
        List.drop_eq_getElem_cons hi]
      simp only [consumedX, List.take_succ_cons]
      rw [ih (i + 1) (j + 1) (by simp [consumedX] at hle; omega),
        List.getD_eq_getElem x 0 hi]
    | Match =>
      have hi : i < x.length := by simp [consumedX] at hle; omega
      have hne : x.getD i 0 ≠ gc := by
        rw [List.getD_eq_getElem x 0 hi]
        intro hcontra
        exact hx (hcontra ▸ List.getElem_mem hi)
      rw [asStringsGo]
      simp only [stripGaps] at ih ⊢
      rw [List.filter_cons_of_pos (by simpa using hne),
        List.drop_eq_getElem_cons hi]
      simp only [consumedX, List.take_succ_cons]
      rw [ih (i + 1) (j + 1) (by simp [consumedX] at hle; omega),
        List.getD_eq_getElem x 0 hi]
    | None =>
      rw [asStringsGo]
      exact ih i j (by simpa [consumedX] using hle)

theorem asStringsGo_strip_y (x y : List Nat) (gc : Nat) (hy : gc ∉ y) :
    ∀ (ops : List AlignmentOperation) (i j : Nat), j + consumedY ops ≤ y.length →
    stripGaps gc (asStringsGo x y gc ops i j).2 = (y.drop j).take (consumedY ops) := by
  intro ops
  induction ops with
  | nil => intro i j _; simp [asStringsGo, stripGaps, consumedY]
  | cons op ops ih =>
    intro i j hle
    cases op with
    | Del =>
      rw [asStringsGo]
      simp only [stripGaps] at ih ⊢
      rw [List.filter_cons_of_neg (by simp)]
      simp only [consumedY]
      exact ih (i + 1) j (by simpa [consumedY] using hle)
    | Ins =>
      have hj : j < y.length := by simp [consumedY] at hle; omega
      have hne : y.getD j 0 ≠ gc := by
        rw [List.getD_eq_getElem y 0 hj]
        intro hcontra
        exact hy (hcontra ▸ List.getElem_mem hj)
      rw [asStringsGo]
      simp only [stripGaps] at ih ⊢
      rw [List.filter_cons_of_pos (by simpa using hne),
        List.drop_eq_getElem_cons hj]
      simp only [consumedY, List.take_succ_cons]
      rw [ih i (j + 1) (by simp [consumedY] at hle; omega),
        List.getD_eq_getElem y 0 hj]
    | Subst =>
      have hj : j < y.length := by simp [consumedY] at hle; omega
      have hne : y.getD j 0 ≠ gc := by
        rw [List.getD_eq_getElem y 0 hj]
        intro hcontra
        exact hy (hcontra ▸ List.getElem_mem hj)
      rw [asStringsGo]
      simp only [stripGaps] at ih ⊢
      rw [List.filter_cons_of_pos (by simpa using hne),
        List.drop_eq_getElem_cons hj]
      simp only [consumedY, List.take_succ_cons]
      rw [ih (i + 1) (j + 1) (by simp [consumedY] at hle; omega),
        List.getD_eq_getElem y 0 hj]
    | Match =>
      have hj : j < y.length := by simp [consumedY] at hle; omega
      have hne : y.getD j 0 ≠ gc := by
        rw [List.getD_eq_getElem y 0 hj]
        intro hcontra
        exact hy (hcontra ▸ List.getElem_mem hj)
      rw [asStringsGo]
      simp only [stripGaps] at ih ⊢
      rw [List.filter_cons_of_pos (by simpa using hne),
        List.drop_eq_getElem_cons hj]
      simp only [consumedY, List.take_succ_cons]
      rw [ih (i + 1) (j + 1) (by simp [consumedY] at hle; omega),
        List.getD_eq_getElem y 0 hj]
    | None =>
      rw [asStringsGo]
      exact ih i j (by simpa [consumedY] using hle)

/-- C3 amended: provided the gap character occurs in neither input
sequence, stripping it from the two strings returned by `as_strings` on a
`global` result recovers exactly `x` and `y`. -/
theorem as_strings_strip_recovers (sc : Scoring) (x y : List Nat) (gc : Nat)
    (hx : gc ∉ x) (hy : gc ∉ y) :
    stripGaps gc (as_strings (global sc x y) gc).1 = x ∧
    stripGaps gc (as_strings (global sc x y) gc).2 = y := by
  have hcons := global_consumed sc x y
  constructor
  · have h := asStringsGo_strip_x x y gc hx (global sc x y).alignment 0 0
      (by rw [hcons.1]; omega)
    rw [hcons.1] at h
    simpa using h
  · have h := asStringsGo_strip_y x y gc hy (global sc x y).alignment 0 0
      (by rw [hcons.2]; omega)
    rw [hcons.2] at h
    simpa using h

/-- Witness for C3's amended statement: gap character `45` (`'-'`) does not
occur in `x = b"ab"` or `y = b"b"` and stripping recovers the inputs. -/
theorem as_strings_strip_recovers_witness :
    stripGaps 45 (as_strings (global exampleScoring [97, 98] [98]) 45).1 = [97, 98] ∧
    stripGaps 45 (as_strings (global exampleScoring [97, 98] [98]) 45).2 = [98] :=
  as_strings_strip_recovers exampleScoring [97, 98] [98] 45 (by decide) (by decide)

/-- The two join candidates scanned by `find_mid` at column `j`:
`b = false` is the match-join `cc_upper[j] + cc_lower[n-j]`, `b = true` the
deletion-join `dd_upper[j] + dd_lower[n-j] - gap_open`. -/
def joinCand (go : Int) (ccU ddU ccL ddL : List Int) (n : Nat) (j : Nat)
    (b : Bool) : Int :=
  if b then ddU.getD j 0 + ddL.getD (n - j) 0 - go
  else ccU.getD j 0 + ccL.getD (n - j) 0

/-- Invariant of the `find_mid` scan after the candidates of all columns
`< a` have been processed: either no candidate so far beat the
`Score::MIN` initialiser, or the state holds the running maximum together
with its earliest position (strictly-greater updates only). -/
def midLoopInv (go : Int) (ccU ddU ccL ddL : List Int) (n : Nat) (a : Nat)
    (st : Int × Nat × Bool) : Prop :=
  (st.1 = scoreMIN ∧ st.2.1 = 0 ∧ st.2.2 = false ∧
    ∀ j < a, ∀ b, joinCand go ccU ddU ccL ddL n j b ≤ scoreMIN) ∨
  (scoreMIN < st.1 ∧
    st.1 = joinCand go ccU ddU ccL ddL n st.2.1 st.2.2 ∧
    st.2.1 < a ∧
    (∀ j < a, ∀ b, joinCand go ccU ddU ccL ddL n j b ≤ st.1) ∧
    (∀ j b, (j < st.2.1 ∨ (j = st.2.1 ∧ b = false ∧ st.2.2 = true)) →
      joinCand go ccU ddU ccL ddL n j b < st.1))

theorem midLoopInv_new (go : Int) (ccU ddU ccL ddL : List Int) (n a : Nat)
    (v : Int) (b : Bool)
    (hv : v = joinCand go ccU ddU ccL ddL n a b)
    (hMIN : scoreMIN < v)
    (hprev : ∀ j < a, ∀ b', joinCand go ccU ddU ccL ddL n j b' < v)
    (hfalse : b = true → joinCand go ccU ddU ccL ddL n a false < v)
    (htrue : b = false → joinCand go ccU ddU ccL ddL n a true ≤ v) :
    midLoopInv go ccU ddU ccL ddL n (a + 1) (v, a, b) := by
  refine Or.inr ⟨hMIN, hv, Nat.lt_succ_self a, ?_, ?_⟩
  · intro j hj b'
    rcases Nat.lt_or_ge j a with hja | hja
    · exact le_of_lt (hprev j hja b')
    · have hje : j = a := by omega
      subst hje
      cases b
      · cases b'
        · exact le_of_eq hv.symm
        · exact htrue rfl
      · cases b'
        · exact le_of_lt (hfalse rfl)
        · exact le_of_eq hv.symm
  · intro j b' hjb
    simp only [] at hjb
    rcases hjb with hja | ⟨rfl, rfl, hb⟩
    · exact hprev j hja b'
    · exact hfalse hb

theorem midLoopInv_keep (go : Int) (ccU ddU ccL ddL : List Int) (n a : Nat)
    (st : Int × Nat × Bool)
    (h : midLoopInv go ccU ddU ccL ddL n a st)
    (hc : joinCand go ccU ddU ccL ddL n a false ≤ st.1)
    (hd : joinCand go ccU ddU ccL ddL n a true ≤ st.1) :
    midLoopInv go ccU ddU ccL ddL n (a + 1) st := by
  have hcover : ∀ j < a + 1, ∀ b', joinCand go ccU ddU ccL ddL n j b' ≤ st.1 →
      True := fun _ _ _ _ => trivial
  rcases h with ⟨h1, h1a, h1b, h2⟩ | ⟨h1, h2, h3, h4, h5⟩
  · refine Or.inl ⟨h1, h1a, h1b, fun j hj b' => ?_⟩
    rcases Nat.lt_or_ge j a with hja | hja
    · exact h2 j hja b'
    · have hje : j = a := by omega
      subst hje
      cases b'
      · exact h1 ▸ hc
      · exact h1 ▸ hd
  · refine Or.inr ⟨h1, h2, by omega, fun j hj b' => ?_, h5⟩
    rcases Nat.lt_or_ge j a with hja | hja
    · exact h4 j hja b'
    · have hje : j = a := by omega
      subst hje
      cases b'
      · exact hc
      · exact hd

theorem findMidLoop_invariant (go : Int) (ccU ddU ccL ddL : List Int) (n : Nat) :
    ∀ (k a : Nat) (st : Int × Nat × Bool),
    midLoopInv go ccU ddU ccL ddL n a st →
    midLoopInv go ccU ddU ccL ddL n (a + k)
      (findMidLoop go ccU ddU ccL ddL n (List.range' a k) st) := by
  intro k
  induction k with
  | zero =>
    intro a st h
    simpa [findMidLoop] using h
  | succ k ih =>
    intro a st h
    rw [List.range'_succ, findMidLoop]
    obtain ⟨mx, jm, bd⟩ := st
    have hsMIN : scoreMIN ≤ mx := by
      rcases h with ⟨h1, _⟩ | ⟨h1, _⟩
      · exact le_of_eq h1.symm
      · exact le_of_lt h1
    have hbound : ∀ j < a, ∀ b', joinCand go ccU ddU ccL ddL n j b' ≤ mx := by
      rcases h with ⟨h1, _, _, h2⟩ | ⟨h1, h2, h3, h4, h5⟩
      · intro j hj b'
        exact le_trans (h2 j hj b') (le_of_eq h1.symm)
      · exact h4
    have hc : joinCand go ccU ddU ccL ddL n a false
        = ccU.getD a 0 + ccL.getD (n - a) 0 := rfl
    have hd : joinCand go ccU ddU ccL ddL n a true
        = ddU.getD a 0 + ddL.getD (n - a) 0 - go := rfl
    have harith : a + (k + 1) = (a + 1) + k := by omega
    rw [harith]
    by_cases hcc : mx < ccU.getD a 0 + ccL.getD (n - a) 0
    · rw [if_pos hcc]
      simp only []
      by_cases hdd : ccU.getD a 0 + ccL.getD (n - a) 0
          < ddU.getD a 0 + ddL.getD (n - a) 0 - go
      · rw [if_pos hdd]
        have hnew := midLoopInv_new go ccU ddU ccL ddL n a
          (ddU.getD a 0 + ddL.getD (n - a) 0 - go) true hd.symm
          (by omega)
          (fun j hj b' => lt_of_le_of_lt (hbound j hj b') (by omega))
          (fun _ => by rw [hc]; omega)
          (fun hcontra => by simp at hcontra)
        exact ih (a + 1) _ hnew
      · rw [if_neg hdd]
        have hnew := midLoopInv_new go ccU ddU ccL ddL n a
          (ccU.getD a 0 + ccL.getD (n - a) 0) false hc.symm
          (by omega)
          (fun j hj b' => lt_of_le_of_lt (hbound j hj b') (by omega))
          (fun hcontra => by simp at hcontra)
          (fun _ => by rw [hd]; omega)
        exact ih (a + 1) _ hnew
    · rw [if_neg hcc]
      simp only []
      by_cases hdd : mx < ddU.getD a 0 + ddL.getD (n - a) 0 - go
      · rw [if_pos hdd]
        have hnew := midLoopInv_new go ccU ddU ccL ddL n a
          (ddU.getD a 0 + ddL.getD (n - a) 0 - go) true hd.symm
          (by omega)
          (fun j hj b' => lt_of_le_of_lt (hbound j hj b') (by omega))
          (fun _ => by rw [hc]; omega)
          (fun hcontra => by simp at hcontra)
        exact ih (a + 1) _ hnew
      · rw [if_neg hdd]
        have hkeep := midLoopInv_keep go ccU ddU ccL ddL n a (mx, jm, bd) h
          (by rw [hc]; simp only []; omega)
          (by rw [hd]; simp only []; omega)
        exact ih (a + 1) _ hkeep

/-- The candidate family scanned by `find_mid sc x y m n tb te`: the
match-join and deletion-join scores built from the forward sweep of the
upper half `x.take (m/2)` (seeded `tb`) and the backward sweep of the
lower half `x.drop (m/2)` (seeded `te`). -/
def findMidCand (sc : Scoring) (x y : List Nat) (m n : Nat) (tb te : Int)
    (j : Nat) (b : Bool) : Int :=
  joinCand sc.gap_open (cost_only sc (x.take (m / 2)) y false tb).1
    (cost_only sc (x.take (m / 2)) y false tb).2
    (cost_only sc (x.drop (m / 2)) y true te).1
    (cost_only sc (x.drop (m / 2)) y true te).2 n j b

/-- C7: `find_mid` evaluates, for every `j` in `0..=n`, the match-join and
deletion-join scores, takes the maximum over both families with
strictly-greater comparison, so ties keep the earliest-found optimum
(smallest `j`, and at equal score for the same `j` the match-join is
preferred over the deletion-join), and returns `imid = m/2`.  (The
hypothesis says every candidate is at least `Score::MIN` — true of every
real i32 execution.) -/
theorem find_mid_earliest_maximizer (sc : Scoring) (x y : List Nat) (m n : Nat)
    (tb te : Int)
    (hMIN : ∀ j ≤ n, ∀ b, scoreMIN ≤ findMidCand sc x y m n tb te j b) :
    (find_mid sc x y m n tb te).1 = m / 2 ∧
    (find_mid sc x y m n tb te).2.1 ≤ n ∧
    (∀ j ≤ n, ∀ b, findMidCand sc x y m n tb te j b
      ≤ findMidCand sc x y m n tb te (find_mid sc x y m n tb te).2.1
          (find_mid sc x y m n tb te).2.2) ∧
    (∀ j < (find_mid sc x y m n tb te).2.1, ∀ b, findMidCand sc x y m n tb te j b
      < findMidCand sc x y m n tb te (find_mid sc x y m n tb te).2.1
          (find_mid sc x y m n tb te).2.2) ∧
    ((find_mid sc x y m n tb te).2.2 = true →
      findMidCand sc x y m n tb te (find_mid sc x y m n tb te).2.1 false
        < findMidCand sc x y m n tb te (find_mid sc x y m n tb te).2.1 true) := by
  have hinit : midLoopInv sc.gap_open (cost_only sc (x.take (m / 2)) y false tb).1
      (cost_only sc (x.take (m / 2)) y false tb).2
      (cost_only sc (x.drop (m / 2)) y true te).1
      (cost_only sc (x.drop (m / 2)) y true te).2 n 0 (scoreMIN, 0, false) :=
    Or.inl ⟨rfl, rfl, rfl, fun j hj _ => absurd hj (by omega)⟩
  have hinv := findMidLoop_invariant sc.gap_open
    (cost_only sc (x.take (m / 2)) y false tb).1
    (cost_only sc (x.take (m / 2)) y false tb).2
    (cost_only sc (x.drop (m / 2)) y true te).1
    (cost_only sc (x.drop (m / 2)) y true te).2 n (n + 1) 0
    (scoreMIN, 0, false) hinit
  rw [show List.range' 0 (n + 1) = List.range (n + 1)
    from (List.range_eq_range' (n + 1)).symm] at hinv
  have hfm : find_mid sc x y m n tb te
      = (m / 2,
        (findMidLoop sc.gap_open (cost_only sc (x.take (m / 2)) y false tb).1
          (cost_only sc (x.take (m / 2)) y false tb).2
          (cost_only sc (x.drop (m / 2)) y true te).1
          (cost_only sc (x.drop (m / 2)) y true te).2 n
          (List.range (n + 1)) (scoreMIN, 0, false)).2.1,
        (findMidLoop sc.gap_open (cost_only sc (x.take (m / 2)) y false tb).1
          (cost_only sc (x.take (m / 2)) y false tb).2
          (cost_only sc (x.drop (m / 2)) y true te).1
          (cost_only sc (x.drop (m / 2)) y true te).2 n
          (List.range (n + 1)) (scoreMIN, 0, false)).2.2) := rfl
  rcases hinv with ⟨h1, h1a, h1b, h2⟩ | ⟨h1, h2, h3, h4, h5⟩
  · refine ⟨by rw [hfm], by rw [hfm]; simp only []; omega, ?_, ?_, ?_⟩
    · intro j hj b
      rw [hfm]
      simp only []
      rw [h1a, h1b]
      have hub := h2 j (by omega) b
      have hub0 := h2 0 (by omega) false
      have hlb0 := hMIN 0 (by omega) false
      simp only [findMidCand] at hub hub0 hlb0 ⊢
      omega
    · intro j hj b
      rw [hfm] at hj
      simp only [] at hj
      rw [h1a] at hj
      omega
    · intro hbd
      rw [hfm] at hbd
      simp only [] at hbd
      rw [h1b] at hbd
      simp at hbd
  · refine ⟨by rw [hfm], by rw [hfm]; simp only []; omega, ?_, ?_, ?_⟩
    · intro j hj b
      rw [hfm]
      simp only [findMidCand]
      have := h4 j (by omega) b
      rw [h2] at this
      simpa using this
    · intro j hj b
      rw [hfm] at hj ⊢
      simp only [findMidCand]
      simp only [] at hj
      have := h5 j b (Or.inl hj)
      rw [h2] at this
      simpa using this
    · intro hbd
      rw [hfm] at hbd ⊢
      simp only [] at hbd
      simp only [findMidCand]
      have := h5 (findMidLoop sc.gap_open
        (cost_only sc (x.take (m / 2)) y false tb).1
        (cost_only sc (x.take (m / 2)) y false tb).2
        (cost_only sc (x.drop (m / 2)) y true te).1
        (cost_only sc (x.drop (m / 2)) y true te).2 n
        (List.range (n + 1)) (scoreMIN, 0, false)).2.1 false
        (Or.inr ⟨rfl, rfl, hbd⟩)
      rw [h2] at this
      have h2' := h2
      rw [hbd] at h2'
      rw [hbd] at this
      exact this

/-- Witness for C7 at the example scoring, `x = b"ab"`, `y = b"a"`. -/
theorem find_mid_earliest_maximizer_witness :
    (find_mid exampleScoring [97, 98] [97] 2 1 (-5) (-5)).1 = 2 / 2 ∧
    (find_mid exampleScoring [97, 98] [97] 2 1 (-5) (-5)).2.1 ≤ 1 ∧
    (∀ j ≤ 1, ∀ b, findMidCand exampleScoring [97, 98] [97] 2 1 (-5) (-5) j b
      ≤ findMidCand exampleScoring [97, 98] [97] 2 1 (-5) (-5)
          (find_mid exampleScoring [97, 98] [97] 2 1 (-5) (-5)).2.1
          (find_mid exampleScoring [97, 98] [97] 2 1 (-5) (-5)).2.2) ∧
    (∀ j < (find_mid exampleScoring [97, 98] [97] 2 1 (-5) (-5)).2.1, ∀ b,
      findMidCand exampleScoring [97, 98] [97] 2 1 (-5) (-5) j b
      < findMidCand exampleScoring [97, 98] [97] 2 1 (-5) (-5)
          (find_mid exampleScoring [97, 98] [97] 2 1 (-5) (-5)).2.1
          (find_mid exampleScoring [97, 98] [97] 2 1 (-5) (-5)).2.2) ∧
    ((find_mid exampleScoring [97, 98] [97] 2 1 (-5) (-5)).2.2 = true →
      findMidCand exampleScoring [97, 98] [97] 2 1 (-5) (-5)
          (find_mid exampleScoring [97, 98] [97] 2 1 (-5) (-5)).2.1 false
        < findMidCand exampleScoring [97, 98] [97] 2 1 (-5) (-5)
          (find_mid exampleScoring [97, 98] [97] 2 1 (-5) (-5)).2.1 true) :=
  find_mid_earliest_maximizer exampleScoring [97, 98] [97] 2 1 (-5) (-5)
    (by decide)

theorem gotohTx_bounds (sc : Scoring) (tx : Int) (x y : List Nat) (ma : Int)
    (htx : tx ≤ 0) (hgo : sc.gap_open ≤ 0) (hge : sc.gap_extend ≤ 0)
    (hma : 0 ≤ ma) (hgoMIN : scoreMIN ≤ sc.gap_open)
    (hmf : ∀ a b, sc.match_fn a b ≤ ma) :
    ∀ i j : Nat,
    (gotohTx sc tx x y i j).1 ≤ ma * min (i : Int) (j : Int) ∧
    (1 ≤ i → 1 ≤ j → (gotohTx sc tx x y i j).2.1
        ≤ ma * min ((i : Int) - 1) (j : Int) + sc.gap_open + sc.gap_extend) ∧
    (1 ≤ i → 1 ≤ j → (gotohTx sc tx x y i j).2.2
        ≤ ma * min (i : Int) ((j : Int) - 1) + sc.gap_open + sc.gap_extend) := by
  intro i j
  induction i, j using gotohTx.induct sc tx x y with
  | case1 =>
    refine ⟨?_, by omega, by omega⟩
    rw [gotohTx_zero_zero]
    simp
  | case2 j =>
    refine ⟨?_, by omega, by omega⟩
    rw [gotohTx_zero_succ]
    have h1 : sc.gap_extend * ((j : Int) + 1) ≤ 0 :=
      mul_nonpos_of_nonpos_of_nonneg hge (by positivity)
    have h2 : ma * min ((0 : Nat) : Int) ((j + 1 : Nat) : Int) = 0 := by
      push_cast
      rw [show min (0 : Int) ((j : Int) + 1) = 0 from by omega]
      ring
    rw [h2]
    simp only []
    omega
  | case3 i =>
    refine ⟨?_, by omega, by omega⟩
    rw [gotohTx_succ_zero]
    have h1 : sc.gap_extend * ((i : Int) + 1) ≤ 0 :=
      mul_nonpos_of_nonpos_of_nonneg hge (by positivity)
    have h2 : ma * min ((i + 1 : Nat) : Int) ((0 : Nat) : Int) = 0 := by
      push_cast
      rw [show min ((i : Int) + 1) (0 : Int) = 0 from by omega]
      ring
    rw [h2]
    simp only []
    omega
  | case4 i j ih_up ih_left ih_diag =>
    obtain ⟨ihu_c, ihu_d, _⟩ := ih_up
    obtain ⟨ihl_c, _, ihl_i⟩ := ih_left
    obtain ⟨ihd_c, _, _⟩ := ih_diag
    have hD : (gotohTx sc tx x y (i + 1) (j + 1)).2.1
        ≤ ma * min ((i : Int)) ((j : Int) + 1) + sc.gap_open + sc.gap_extend := by
      rw [gotohTx_succ_succ]
      simp only []
      have hup : (gotohTx sc tx x y i (j + 1)).2.1
          ≤ ma * min ((i : Int)) ((j : Int) + 1) + sc.gap_open := by
        cases i with
        | zero =>
          rw [gotohTx_zero_succ]
          simp only []
          have : ma * min ((0 : Nat) : Int) ((j : Int) + 1) = 0 := by
            push_cast
            rw [show min (0 : Int) ((j : Int) + 1) = 0 from by omega]
            ring
          rw [this]
          omega
        | succ i' =>
          have h1 := ihu_d (by omega) (by omega)
          have h2 : ma * min (((i' + 1 : Nat) : Int) - 1) ((j + 1 : Nat) : Int)
              ≤ ma * min (((i' + 1 : Nat) : Int)) ((j : Int) + 1) := by
            refine mul_le_mul_of_nonneg_left ?_ hma
            push_cast
            omega
          push_cast at h1 h2 ⊢
          omega
      have hc : (gotohTx sc tx x y i (j + 1)).1 + sc.gap_open
          ≤ ma * min ((i : Int)) ((j : Int) + 1) + sc.gap_open := by
        have h1 := ihu_c
        push_cast at h1 ⊢
        omega
      have := max_le hup hc
      omega
    have hI : (gotohTx sc tx x y (i + 1) (j + 1)).2.2
        ≤ ma * min ((i : Int) + 1) ((j : Int)) + sc.gap_open + sc.gap_extend := by
      rw [gotohTx_succ_succ]
      simp only []
      have hleft : (gotohTx sc tx x y (i + 1) j).2.2
          ≤ ma * min ((i : Int) + 1) ((j : Int)) + sc.gap_open := by
        cases j with
        | zero =>
          rw [gotohTx_succ_zero]
          simp only []
          have : ma * min ((i : Int) + 1) ((0 : Nat) : Int) = 0 := by
            push_cast
            rw [show min ((i : Int) + 1) (0 : Int) = 0 from by omega]
            ring
          rw [this]
          omega
        | succ j' =>
          have h1 := ihl_i (by omega) (by omega)
          have h2 : ma * min (((i + 1 : Nat) : Int)) (((j' + 1 : Nat) : Int) - 1)
              ≤ ma * min (((i : Int) + 1)) ((j' + 1 : Nat) : Int) := by
            refine mul_le_mul_of_nonneg_left ?_ hma
            push_cast
            omega
          push_cast at h1 h2 ⊢
          omega
      have hc : (gotohTx sc tx x y (i + 1) j).1 + sc.gap_open
          ≤ ma * min ((i : Int) + 1) ((j : Int)) + sc.gap_open := by
        have h1 := ihl_c
        push_cast at h1 ⊢
        omega
      have := max_le hleft hc
      omega
    refine ⟨?_, fun _ _ => ?_, fun _ _ => ?_⟩
    · rw [gotohTx_succ_succ]
      have hdiag : (gotohTx sc tx x y i j).1 + sc.match_fn (x.getD i 0) (y.getD j 0)
          ≤ ma * min ((i : Int) + 1) ((j : Int) + 1) := by
        have h1 := ihd_c
        have h2 := hmf (x.getD i 0) (y.getD j 0)
        have h3 : ma * min ((i : Int)) ((j : Int)) + ma
            = ma * min ((i : Int) + 1) ((j : Int) + 1) := by
          rw [show min ((i : Int) + 1) ((j : Int) + 1) = min (i : Int) (j : Int) + 1
            from by omega]
          ring
        push_cast at h1
        omega
      have hDle : ma * min ((i : Int)) ((j : Int) + 1) + sc.gap_open + sc.gap_extend
          ≤ ma * min ((i : Int) + 1) ((j : Int) + 1) := by
        have h2 : ma * min ((i : Int)) ((j : Int) + 1)
            ≤ ma * min ((i : Int) + 1) ((j : Int) + 1) := by
          refine mul_le_mul_of_nonneg_left (by omega) hma
        omega
      have hIle : ma * min ((i : Int) + 1) ((j : Int)) + sc.gap_open + sc.gap_extend
          ≤ ma * min ((i : Int) + 1) ((j : Int) + 1) := by
        have h2 : ma * min ((i : Int) + 1) ((j : Int))
            ≤ ma * min ((i : Int) + 1) ((j : Int) + 1) := by
          refine mul_le_mul_of_nonneg_left (by omega) hma
        omega
      rw [gotohTx_succ_succ] at hD hI
      push_cast at hD hI hdiag hDle hIle ⊢
      omega
    · simp only [Nat.succ_eq_add_one]
      push_cast at hD ⊢
      rw [show ((i : Int) + 1 - 1) = (i : Int) from by ring]
      omega
    · simp only [Nat.succ_eq_add_one]
      push_cast at hI ⊢
      rw [show ((j : Int) + 1 - 1) = (j : Int) from by ring]
      omega

theorem gotohTx_diag_lower (sc : Scoring) (tx : Int) (x y : List Nat) (ma : Int)
    (r : Nat) (hmf : ∀ k < r, ma ≤ sc.match_fn (x.getD k 0) (y.getD k 0)) :
    ∀ k ≤ r, (k : Int) * ma ≤ (gotohTx sc tx x y k k).1 := by
  intro k
  induction k with
  | zero =>
    intro _
    rw [gotohTx_zero_zero]
    simp
  | succ k ih =>
    intro hk
    rw [gotohTx_succ_succ]
    have h1 := ih (by omega)
    have h2 := hmf k (by omega)
    have h3 : ((k + 1 : Nat) : Int) * ma
        ≤ (gotohTx sc tx x y k k).1 + sc.match_fn (x.getD k 0) (y.getD k 0) := by
      push_cast
      nlinarith
    exact le_trans h3 (le_max_right _ _)

theorem flat_match_fn_le (go ge ma mi : Int) (hmi : mi ≤ ma) :
    ∀ a b, (Scoring.flat go ge ma mi).match_fn a b ≤ ma := by
  intro a b
  simp only [Scoring.flat, MatchParams.score]
  split_ifs <;> omega

theorem flat_match_fn_self (go ge ma mi : Int) (a b : Nat) (h : a = b) :
    (Scoring.flat go ge ma mi).match_fn a b = ma := by
  simp [Scoring.flat, MatchParams.score, h]

theorem cost_only_cc_bound (sc : Scoring) (x y : List Nat) (tx ma : Int)
    (htx : tx ≤ 0) (hgo : sc.gap_open ≤ 0) (hge : sc.gap_extend ≤ 0)
    (hma : 0 ≤ ma) (hgoMIN : scoreMIN ≤ sc.gap_open)
    (hmf : ∀ a b, sc.match_fn a b ≤ ma) (j : Nat) (hj : j ≤ y.length) :
    (cost_only sc x y false tx).1.getD j 0 ≤ ma * min (x.length : Int) (j : Int) := by
  rw [cost_only_cc_getD sc x y tx j hj]
  exact (gotohTx_bounds sc tx x y ma htx hgo hge hma hgoMIN hmf x.length j).1

theorem cost_only_dd_bound (sc : Scoring) (x y : List Nat) (tx ma : Int)
    (htx : tx ≤ 0) (hgo : sc.gap_open ≤ 0) (hge : sc.gap_extend ≤ 0)
    (hma : 0 ≤ ma) (hgoMIN : scoreMIN ≤ sc.gap_open)
    (hmf : ∀ a b, sc.match_fn a b ≤ ma) (j : Nat)
    (hx : 1 ≤ x.length) (hj1 : 1 ≤ j) (hj : j ≤ y.length) :
    (cost_only sc x y false tx).2.getD j 0
      ≤ ma * min ((x.length : Int) - 1) (j : Int) + sc.gap_open + sc.gap_extend := by
  rw [cost_only_dd_getD sc x y tx j hj1 hj]
  exact (gotohTx_bounds sc tx x y ma htx hgo hge hma hgoMIN hmf x.length j).2.1 hx hj1

theorem cost_only_dd0_bound (sc : Scoring) (x y : List Nat) (tx : Int)
    (htx : tx ≤ 0) (hge : sc.gap_extend ≤ 0) (hx : 1 ≤ x.length) :
    (cost_only sc x y false tx).2.getD 0 0 ≤ 0 := by
  rw [cost_only_dd_getD_zero]
  obtain ⟨i', hi⟩ : ∃ i', x.length = i' + 1 := ⟨x.length - 1, by omega⟩
  rw [hi, gotohTx_succ_zero]
  simp only []
  have := mul_nonpos_of_nonpos_of_nonneg hge (show (0 : Int) ≤ (i' : Int) + 1 by positivity)
  omega

theorem take_diag_lower (go ge ma mi tb : Int) (u : List Nat) (imid : Nat)
    (himid : imid ≤ u.length) :
    ((imid : Int)) * ma
      ≤ (cost_only (Scoring.flat go ge ma mi) (u.take imid) u false tb).1.getD imid 0 := by
  rw [cost_only_cc_getD _ _ _ _ imid (by omega)]
  have hlen : (u.take imid).length = imid := by
    rw [List.length_take]
    omega
  have hchars : ∀ k < imid, ma ≤ (Scoring.flat go ge ma mi).match_fn
      ((u.take imid).getD k 0) (u.getD k 0) := by
    intro k hk
    have hklen : k < u.length := by omega
    have heq : (u.take imid).getD k 0 = u.getD k 0 := by
      rw [List.getD_eq_getElem (u.take imid) 0 (by rw [hlen]; omega),
        List.getD_eq_getElem u 0 hklen]
      exact List.getElem_take u
    rw [flat_match_fn_self go ge ma mi _ _ heq]
  have := gotohTx_diag_lower (Scoring.flat go ge ma mi) tb (u.take imid) u ma imid
    hchars imid (le_refl _)
  rw [hlen]
  exact this

theorem drop_diag_lower (go ge ma mi te : Int) (u : List Nat) (imid : Nat)
    (himid : imid ≤ u.length) :
    (((u.length - imid : Nat)) : Int) * ma
      ≤ (cost_only (Scoring.flat go ge ma mi) (u.drop imid) u true te).1.getD
          (u.length - imid) 0 := by
  rw [cost_only_true_eq]
  rw [cost_only_cc_getD _ _ _ _ (u.length - imid)
    (by rw [List.length_reverse]; omega)]
  have hlen : (u.drop imid).reverse.length = u.length - imid := by
    rw [List.length_reverse, List.length_drop]
  have hchars : ∀ k < u.length - imid, ma ≤ (Scoring.flat go ge ma mi).match_fn
      ((u.drop imid).reverse.getD k 0) (u.reverse.getD k 0) := by
    intro k hk
    have hdlen : (u.drop imid).length = u.length - imid := List.length_drop imid u
    have h1 : (u.drop imid).reverse.getD k 0 = u.getD (u.length - 1 - k) 0 := by
      rw [List.getD_eq_getElem ((u.drop imid).reverse) 0 (by rw [hlen]; omega),
        List.getD_eq_getElem u 0 (by omega)]
      rw [List.getElem_reverse, List.getElem_drop]
      congr 1
      omega
    have h2 : u.reverse.getD k 0 = u.getD (u.length - 1 - k) 0 := by
      rw [List.getD_eq_getElem (u.reverse) 0 (by rw [List.length_reverse]; omega),
        List.getD_eq_getElem u 0 (by omega)]
      exact List.getElem_reverse _
    rw [h1, h2]
    exact le_of_eq (flat_match_fn_self go ge ma mi _ _ rfl).symm
  have := gotohTx_diag_lower (Scoring.flat go ge ma mi) te (u.drop imid).reverse
    u.reverse ma (u.length - imid) hchars (u.length - imid) (le_refl _)
  rw [hlen]
  exact this

theorem joinCand_false (go : Int) (ccU ddU ccL ddL : List Int) (n j : Nat) :
    joinCand go ccU ddU ccL ddL n j false = ccU.getD j 0 + ccL.getD (n - j) 0 := rfl

theorem joinCand_true (go : Int) (ccU ddU ccL ddL : List Int) (n j : Nat) :
    joinCand go ccU ddU ccL ddL n j true
      = ddU.getD j 0 + ddL.getD (n - j) 0 - go := rfl

set_option maxHeartbeats 2000000 in
theorem find_mid_self (go ge ma mi tb te : Int) (u : List Nat)
    (hgo : go ≤ 0) (hge : ge ≤ 0) (hma : 0 < ma) (hmi : mi ≤ 0)
    (hgoMIN : scoreMIN ≤ go) (htb : tb ≤ 0) (hte : te ≤ 0)
    (hn : 2 ≤ u.length) :
    find_mid (Scoring.flat go ge ma mi) u u u.length u.length tb te
      = (u.length / 2, u.length / 2, false) := by
  have hfields_go : (Scoring.flat go ge ma mi).gap_open = go := rfl
  have hfields_ge : (Scoring.flat go ge ma mi).gap_extend = ge := rfl
  have hmf := flat_match_fn_le go ge ma mi (by omega)
  have himid1 : 1 ≤ u.length / 2 := by omega
  have himid2 : u.length / 2 + 1 ≤ u.length := by omega
  have hUlen : (u.take (u.length / 2)).length = u.length / 2 := by
    rw [List.length_take]
    omega
  have hLlen : ((u.drop (u.length / 2)).reverse).length = u.length - u.length / 2 := by
    rw [List.length_reverse, List.length_drop]
  have hRlen : (u.reverse).length = u.length := List.length_reverse u
  have hLrw : cost_only (Scoring.flat go ge ma mi) (u.drop (u.length / 2)) u true te
      = cost_only (Scoring.flat go ge ma mi) ((u.drop (u.length / 2)).reverse)
        u.reverse false te := cost_only_true_eq _ _ _ _
  -- strict upper bound on every candidate other than (imid, false)
  have hstrict : ∀ j ≤ u.length, ∀ b, ¬(j = u.length / 2 ∧ b = false) →
      joinCand (Scoring.flat go ge ma mi).gap_open
        (cost_only (Scoring.flat go ge ma mi) (u.take (u.length / 2)) u false tb).1
        (cost_only (Scoring.flat go ge ma mi) (u.take (u.length / 2)) u false tb).2
        (cost_only (Scoring.flat go ge ma mi) (u.drop (u.length / 2)) u true te).1
        (cost_only (Scoring.flat go ge ma mi) (u.drop (u.length / 2)) u true te).2
        u.length j b < (u.length : Int) * ma := by
    intro j hj b hne
    cases b with
    | false =>
      have hjne : j ≠ u.length / 2 := fun h => hne ⟨h, rfl⟩
      have b1 := cost_only_cc_bound (Scoring.flat go ge ma mi) (u.take (u.length / 2))
        u tb ma htb hgo hge (by omega) hgoMIN hmf j hj
      have b2 := cost_only_cc_bound (Scoring.flat go ge ma mi)
        ((u.drop (u.length / 2)).reverse) u.reverse te ma hte hgo hge (by omega)
        hgoMIN hmf (u.length - j) (by rw [hRlen]; omega)
      rw [hUlen] at b1
      rw [hLlen] at b2
      rw [← hLrw] at b2
      rw [joinCand_false]
      have hsum : min ((u.length / 2 : Nat) : Int) (j : Int)
          + min (((u.length - u.length / 2 : Nat)) : Int) (((u.length - j : Nat)) : Int)
          ≤ (u.length : Int) - 1 := by omega
      have e1 : ma * min ((u.length / 2 : Nat) : Int) (j : Int)
          + ma * min (((u.length - u.length / 2 : Nat)) : Int) (((u.length - j : Nat)) : Int)
          ≤ ma * ((u.length : Int) - 1) := by
        rw [← mul_add]
        exact mul_le_mul_of_nonneg_left hsum (by omega)
      have e2 : ma * ((u.length : Int) - 1) < (u.length : Int) * ma := by nlinarith
      linarith
    | true =>
      rw [joinCand_true, hfields_go]
      rcases Nat.eq_zero_or_pos j with hj0 | hjpos
      · subst hj0
        have b1 := cost_only_dd0_bound (Scoring.flat go ge ma mi) (u.take (u.length / 2))
          u tb htb hge (by omega)
        have b2 := cost_only_dd_bound (Scoring.flat go ge ma mi)
          ((u.drop (u.length / 2)).reverse) u.reverse te ma hte hgo hge (by omega)
          hgoMIN hmf (u.length - 0) (by omega) (by omega) (by rw [hRlen]; omega)
        rw [hLlen] at b2
        rw [← hLrw] at b2
        rw [hfields_ge] at b2
        have hminle : min ((((u.length - u.length / 2 : Nat)) : Int) - 1)
            (((u.length - 0 : Nat)) : Int) ≤ (u.length : Int) - 2 := by omega
        have e1 : ma * min ((((u.length - u.length / 2 : Nat)) : Int) - 1)
            (((u.length - 0 : Nat)) : Int) ≤ ma * ((u.length : Int) - 2) :=
          mul_le_mul_of_nonneg_left hminle (by omega)
        have e2 : ma * ((u.length : Int) - 2) < (u.length : Int) * ma := by nlinarith
        linarith
      · rcases Nat.lt_or_ge j u.length with hjlt | hjge
        · have b1 := cost_only_dd_bound (Scoring.flat go ge ma mi) (u.take (u.length / 2))
            u tb ma htb hgo hge (by omega) hgoMIN hmf j (by omega) (by omega) hj
          have b2 := cost_only_dd_bound (Scoring.flat go ge ma mi)
            ((u.drop (u.length / 2)).reverse) u.reverse te ma hte hgo hge (by omega)
            hgoMIN hmf (u.length - j) (by rw [hLlen]; omega) (by omega)
            (by rw [hRlen]; omega)
          rw [hUlen, hfields_ge, hfields_go] at b1
          rw [hLlen, ← hLrw, hfields_ge, hfields_go] at b2
          have hsum : min ((((u.length / 2 : Nat)) : Int) - 1) (j : Int)
              + min ((((u.length - u.length / 2 : Nat)) : Int) - 1) (((u.length - j : Nat)) : Int)
              ≤ (u.length : Int) - 2 := by omega
          have e1 : ma * min ((((u.length / 2 : Nat)) : Int) - 1) (j : Int)
              + ma * min ((((u.length - u.length / 2 : Nat)) : Int) - 1)
                  (((u.length - j : Nat)) : Int)
              ≤ ma * ((u.length : Int) - 2) := by
            rw [← mul_add]
            exact mul_le_mul_of_nonneg_left hsum (by omega)
          have e2 : ma * ((u.length : Int) - 2) < (u.length : Int) * ma := by nlinarith
          linarith
        · have hjn : j = u.length := by omega
          subst hjn
          have b1 := cost_only_dd_bound (Scoring.flat go ge ma mi) (u.take (u.length / 2))
            u tb ma htb hgo hge (by omega) hgoMIN hmf u.length (by omega) (by omega)
            (le_refl _)
          have b2 := cost_only_dd0_bound (Scoring.flat go ge ma mi)
            ((u.drop (u.length / 2)).reverse) u.reverse te hte hge (by rw [hLlen]; omega)
          rw [← hLrw] at b2
          rw [hUlen, hfields_ge, hfields_go] at b1
          rw [show u.length - u.length = 0 from by omega]
          have hminle : min ((((u.length / 2 : Nat)) : Int) - 1) ((u.length : Int))
              ≤ (u.length : Int) - 2 := by omega
          have e1 : ma * min ((((u.length / 2 : Nat)) : Int) - 1) ((u.length : Int))
              ≤ ma * ((u.length : Int) - 2) :=
            mul_le_mul_of_nonneg_left hminle (by omega)
          have e2 : ma * ((u.length : Int) - 2) < (u.length : Int) * ma := by nlinarith
          linarith
  -- the diagonal match-join candidate attains at least n * ma
  have hdiag : (u.length : Int) * ma
      ≤ joinCand (Scoring.flat go ge ma mi).gap_open
        (cost_only (Scoring.flat go ge ma mi) (u.take (u.length / 2)) u false tb).1
        (cost_only (Scoring.flat go ge ma mi) (u.take (u.length / 2)) u false tb).2
        (cost_only (Scoring.flat go ge ma mi) (u.drop (u.length / 2)) u true te).1
        (cost_only (Scoring.flat go ge ma mi) (u.drop (u.length / 2)) u true te).2
        u.length (u.length / 2) false := by
    have b1 := take_diag_lower go ge ma mi tb u (u.length / 2) (by omega)
    have b2 := drop_diag_lower go ge ma mi te u (u.length / 2) (by omega)
    rw [joinCand_false]
    have hcast : ((u.length / 2 : Nat) : Int) * ma
        + (((u.length - u.length / 2 : Nat)) : Int) * ma = (u.length : Int) * ma := by
      have h1 : ((u.length / 2 : Nat) : Int) + (((u.length - u.length / 2 : Nat)) : Int)
          = (u.length : Int) := by omega
      nlinarith [h1]
    linarith
  -- run the scan invariant
  have hinit : midLoopInv (Scoring.flat go ge ma mi).gap_open
      (cost_only (Scoring.flat go ge ma mi) (u.take (u.length / 2)) u false tb).1
      (cost_only (Scoring.flat go ge ma mi) (u.take (u.length / 2)) u false tb).2
      (cost_only (Scoring.flat go ge ma mi) (u.drop (u.length / 2)) u true te).1
      (cost_only (Scoring.flat go ge ma mi) (u.drop (u.length / 2)) u true te).2
      u.length 0 (scoreMIN, 0, false) :=
    Or.inl ⟨rfl, rfl, rfl, fun j hj _ => absurd hj (by omega)⟩
  have hinv := findMidLoop_invariant (Scoring.flat go ge ma mi).gap_open
    (cost_only (Scoring.flat go ge ma mi) (u.take (u.length / 2)) u false tb).1
    (cost_only (Scoring.flat go ge ma mi) (u.take (u.length / 2)) u false tb).2
    (cost_only (Scoring.flat go ge ma mi) (u.drop (u.length / 2)) u true te).1
    (cost_only (Scoring.flat go ge ma mi) (u.drop (u.length / 2)) u true te).2
    u.length (u.length + 1) 0 (scoreMIN, 0, false) hinit
  rw [show List.range' 0 (u.length + 1) = List.range (u.length + 1)
    from (List.range_eq_range' _).symm] at hinv
  simp only [Nat.zero_add] at hinv
  have hfm : find_mid (Scoring.flat go ge ma mi) u u u.length u.length tb te
      = (u.length / 2,
        (findMidLoop (Scoring.flat go ge ma mi).gap_open
          (cost_only (Scoring.flat go ge ma mi) (u.take (u.length / 2)) u false tb).1
          (cost_only (Scoring.flat go ge ma mi) (u.take (u.length / 2)) u false tb).2
          (cost_only (Scoring.flat go ge ma mi) (u.drop (u.length / 2)) u true te).1
          (cost_only (Scoring.flat go ge ma mi) (u.drop (u.length / 2)) u true te).2
          u.length (List.range (u.length + 1)) (scoreMIN, 0, false)).2.1,
        (findMidLoop (Scoring.flat go ge ma mi).gap_open
          (cost_only (Scoring.flat go ge ma mi) (u.take (u.length / 2)) u false tb).1
          (cost_only (Scoring.flat go ge ma mi) (u.take (u.length / 2)) u false tb).2
          (cost_only (Scoring.flat go ge ma mi) (u.drop (u.length / 2)) u true te).1
          (cost_only (Scoring.flat go ge ma mi) (u.drop (u.length / 2)) u true te).2
          u.length (List.range (u.length + 1)) (scoreMIN, 0, false)).2.2) := rfl
  rw [hfm]
  set st := findMidLoop (Scoring.flat go ge ma mi).gap_open
    (cost_only (Scoring.flat go ge ma mi) (u.take (u.length / 2)) u false tb).1
    (cost_only (Scoring.flat go ge ma mi) (u.take (u.length / 2)) u false tb).2
    (cost_only (Scoring.flat go ge ma mi) (u.drop (u.length / 2)) u true te).1
    (cost_only (Scoring.flat go ge ma mi) (u.drop (u.length / 2)) u true te).2
    u.length (List.range (u.length + 1)) (scoreMIN, 0, false) with hst
  have hposn : (0 : Int) < (u.length : Int) * ma := by
    have h1 : (0 : Int) < (u.length : Int) := by omega
    exact mul_pos h1 hma
  have hsm : scoreMIN < 0 := by norm_num [scoreMIN]
  rcases hinv with ⟨h1, h1a, h1b, h2⟩ | ⟨h1, h2, h3, h4, h5⟩
  · exfalso
    have hcontra := h2 (u.length / 2) (by omega) false
    linarith
  · have hb := h4 (u.length / 2) (by omega) false
    have hge_nma := le_trans hdiag hb
    by_cases hbd : st.2.2 = true
    · exfalso
      rw [hbd] at h2
      have hlt := hstrict st.2.1 (by omega) true (by simp)
      rw [← h2] at hlt
      linarith
    · have hbdf : st.2.2 = false := by
        revert hbd
        cases st.2.2 <;> simp
      by_cases hjm : st.2.1 = u.length / 2
      · rw [hjm, hbdf]
      · exfalso
        rw [hbdf] at h2
        have hlt := hstrict st.2.1 (by omega) false (fun h => hjm h.1)
        rw [← h2] at hlt
        linarith

theorem nw_onerow_self (go ge ma mi tb te : Int) (c : Nat)
    (hge : ge ≤ 0) (hma : 0 < ma) (htb : tb ≤ 0) (hte : te ≤ 0) :
    nw_onerow (Scoring.flat go ge ma mi) c [c] 1 tb te = [AlignmentOperation.Match] := by
  rw [nw_onerow, show List.range 1 = [0] from rfl, oneRowLoop, oneRowLoop]
  have hm : (Scoring.flat go ge ma mi).match_fn c ([c].getD 0 0) = ma :=
    flat_match_fn_self go ge ma mi c ([c].getD 0 0) rfl
  have hgo' : (Scoring.flat go ge ma mi).gap_open = go := rfl
  have hge' : (Scoring.flat go ge ma mi).gap_extend = ge := rfl
  have hsup : tb ⊔ te ≤ 0 := by
    rw [sup_le_iff]
    exact ⟨htb, hte⟩
  simp only [hm, hgo', hge']
  norm_num
  have h1 : tb ⊔ te + ge * 2 + go < go + ma := by nlinarith
  rw [if_pos h1]
  simp only []
  rw [if_neg (show ¬(go + ma = tb ⊔ te + ge * 2 + go) from by intro heq; linarith)]
  simp

theorem compute_recursiveF_self (go ge ma mi : Int)
    (hgo : go ≤ 0) (hge : ge ≤ 0) (hma : 0 < ma) (hmi : mi ≤ 0)
    (hgoMIN : scoreMIN ≤ go) :
    ∀ (fuel : Nat) (u : List Nat) (tb te : Int), u.length < fuel → u ≠ [] →
    tb ≤ 0 → te ≤ 0 →
    compute_recursiveF (Scoring.flat go ge ma mi) fuel u u tb te
      = List.replicate u.length AlignmentOperation.Match := by
  intro fuel
  induction fuel with
  | zero => intro u tb te h _ _ _; omega
  | succ fuel ih =>
    intro u tb te hf hu htb hte
    rw [compute_recursiveF]
    have hn0 : ¬(u.length = 0) := by cases u <;> simp_all
    rw [if_neg hn0, if_neg hn0]
    by_cases h1 : u.length = 1
    · rw [if_pos h1]
      obtain ⟨c, rfl⟩ : ∃ c, u = [c] := List.length_eq_one.mp h1
      rw [show ([c] : List Nat).headD 0 = c from rfl, h1]
      rw [nw_onerow_self go ge ma mi tb te c hge hma htb hte]
      rfl
    · rw [if_neg h1]
      have h2 : 2 ≤ u.length := by
        have : 1 ≤ u.length := by omega
        omega
      rw [find_mid_self go ge ma mi tb te u hgo hge hma hmi hgoMIN htb hte h2]
      simp only []
      rw [if_neg (show ¬((false : Bool) = true) from Bool.false_ne_true)]
      have htake_len : (u.take (u.length / 2)).length = u.length / 2 := by
        rw [List.length_take]
        omega
      have hdrop_len : (u.drop (u.length / 2)).length = u.length - u.length / 2 :=
        List.length_drop _ _
      have htake_ne : u.take (u.length / 2) ≠ [] := by
        intro hcontra
        have := congrArg List.length hcontra
        rw [htake_len] at this
        simp at this
        omega
      have hdrop_ne : u.drop (u.length / 2) ≠ [] := by
        intro hcontra
        have := congrArg List.length hcontra
        rw [hdrop_len] at this
        simp at this
        omega
      rw [show (Scoring.flat go ge ma mi).gap_open = go from rfl]
      rw [ih (u.take (u.length / 2)) tb go (by rw [htake_len]; omega) htake_ne htb hgo,
        ih (u.drop (u.length / 2)) 0 go (by rw [hdrop_len]; omega) hdrop_ne
          (le_refl 0) hgo]
      rw [htake_len, hdrop_len, ← List.replicate_add]
      congr 1
      omega

/-- C8 counterexample: the flat scoring `(0, 0, 0, 0)` is valid by the
claim's own criteria (`gap_open ≤ 0`, `gap_extend ≤ 0`, `match_score ≥ 0`,
`mismatch_score ≤ 0`), yet aligning `x = [97]` against itself returns the
operations `[Del, Ins]` — not an all-`Match` sequence (the score, `0`,
does equal `|x| * match_score`). -/
theorem global_self_not_all_match_at_zero :
    (global (Scoring.flat 0 0 0 0) [97] [97]).alignment
      = [AlignmentOperation.Del, AlignmentOperation.Ins] ∧
    (global (Scoring.flat 0 0 0 0) [97] [97]).score = 0 ∧
    ¬((global (Scoring.flat 0 0 0 0) [97] [97]).alignment
        = List.replicate 1 AlignmentOperation.Match) := by
  decide

/-- C8 amended: for every nonempty byte sequence `x` and every valid flat
scoring with strictly positive `match_score` (at `match_score = 0` the
all-`Match` shape fails, see the counterexample) whose `gap_open` is at
least `Score::MIN`, `global(x, x)` returns score `|x| * match_score` and
an all-`Match` operation sequence. -/
theorem global_self_all_match (go ge ma mi : Int) (x : List Nat)
    (hgo : go ≤ 0) (hge : ge ≤ 0) (hma : 0 < ma) (hmi : mi ≤ 0)
    (hgoMIN : scoreMIN ≤ go) (hx : x ≠ []) :
    (global (Scoring.flat go ge ma mi) x x).score = (x.length : Int) * ma ∧
    (global (Scoring.flat go ge ma mi) x x).alignment
      = List.replicate x.length AlignmentOperation.Match := by
  constructor
  · show (cost_only (Scoring.flat go ge ma mi) x x false
        (Scoring.flat go ge ma mi).gap_open).1.getD x.length 0 = _
    rw [cost_only_cc_getD _ _ _ _ x.length (le_refl _)]
    have hub := (gotohTx_bounds (Scoring.flat go ge ma mi)
      (Scoring.flat go ge ma mi).gap_open x x ma hgo hgo hge (by omega) hgoMIN
      (flat_match_fn_le go ge ma mi (by omega)) x.length x.length).1
    rw [min_self] at hub
    have hlb := gotohTx_diag_lower (Scoring.flat go ge ma mi)
      (Scoring.flat go ge ma mi).gap_open x x ma x.length
      (fun k _ => le_of_eq (flat_match_fn_self go ge ma mi _ _ rfl).symm)
      x.length (le_refl _)
    have hcomm : ma * (x.length : Int) = (x.length : Int) * ma := mul_comm _ _
    omega
  · show compute_recursiveF (Scoring.flat go ge ma mi) (x.length + 1) x x
        (Scoring.flat go ge ma mi).gap_open (Scoring.flat go ge ma mi).gap_open = _
    exact compute_recursiveF_self go ge ma mi hgo hge hma hmi hgoMIN
      (x.length + 1) x go go (by omega) hx hgo hgo

/-- Witness for C8's amended statement at the example scoring and
`x = b"at"`. -/
theorem global_self_all_match_witness :
    (global exampleScoring [97, 116] [97, 116]).score = ((2 : Nat) : Int) * 2 ∧
    (global exampleScoring [97, 116] [97, 116]).alignment
      = List.replicate 2 AlignmentOperation.Match :=
  global_self_all_match (-5) (-1) 2 (-1) [97, 116] (by decide) (by decide)
    (by decide) (by decide) (by decide) (by decide)

end BioAlgo
